import Mathlib

/-!
# LaserCenterline — verification of the raster-to-vector pipeline

Shallow embedding of the core image-processing pipeline of the LaserCenterline
repository.  The authoritative implementation is the parameterised processor
`ImageProcessor` in `src/unnamed/part_004` (binarization, morphology, silhouette,
region analysis, Zhang–Suen thinning, Moore contour tracing, skeleton chain
tracing, path optimisation and SVG emission); the Ramer–Douglas–Peucker
simplifier lives in the skeleton-only variants in `src/services/imageProcessor.ts`.

Conventions of the embedding:
* a row-major byte buffer of 0/1 cells (`Uint8Array` binary mask) is modelled
  as a natural number whose bit `i` is cell `i`; `maskGet m i` reads cell `i`
  as the 0/1 byte the source reads, and `buildMask n f` is the buffer with `n`
  cells whose cell `i` holds `f i` — this encoding is what lets all witnesses
  evaluate inside the kernel;
* pixel coordinates are natural-number pairs `(x, y)`; candidate neighbour
  coordinates that the source computes as possibly-negative JavaScript numbers
  are modelled with explicit guards or an `Int` detour;
* the `visited` byte-arrays become `Finset Nat` of visited row-major indices;
* real-valued geometry (smoothing, distances, areas, thresholds) uses `Rat`,
  which models the source's float arithmetic exactly because every operation
  used (sums, products, divisions by constants) is exact;
* the source's comparisons `Math.sqrt e < c` with `c ≥ 0` are rendered as the
  equivalent comparisons of squares `e < c^2`;
* unbounded `while` loops become fuel-indexed recursion with fuel large enough
  (each loop provably performs at most `w*h`-ish iterations).

The `Rat` arithmetic operations are `@[irreducible]` in the library; they are
made semireducible here so that concrete runs of the pipeline reduce.
-/

attribute [local semireducible] Rat.add Rat.mul Rat.sub Rat.inv

namespace LaserCL

/-- Real-valued point (source `Point = [number, number]` after smoothing). -/
abbrev RPt := Rat × Rat

/-- Integer pixel coordinate `(x, y)` in a `w × h` grid. -/
abbrev GPt := Nat × Nat

/-- Path kind tag (source `PathType`). -/
inductive PathType
  | OUTLINE
  | CENTERLINE
deriving DecidableEq

/-- Source interface `OptimizedPath` of `src/unnamed/part_004`. -/
structure OptimizedPath where
  points : List RPt
  isClosed : Bool
  area : Rat
  pathType : PathType
deriving DecidableEq

/-- Source interface `Region` of `src/unnamed/part_004`; `bounds` is flattened
into the four fields `minX maxX minY maxY`. -/
structure Region where
  pixels : List GPt
  avgWidth : Rat
  area : Nat
  minX : Nat
  maxX : Nat
  minY : Nat
  maxY : Nat
deriving DecidableEq

/-- The two exposed tuning parameters (source `ProcessingParams`; the unused
`smoothingLevel` field is omitted). -/
structure ProcessingParams where
  detailLevel : Nat
  centerlineSensitivity : Nat
deriving DecidableEq

/-- Cell `i` of a row-major 0/1 buffer (bit `i` of the encoding), as the 0/1
byte value the source reads. -/
def maskGet (m i : Nat) : Nat := if m.testBit i then 1 else 0

/-- The row-major 0/1 buffer with `n` cells whose cell `i` holds `f i`.  Every
buffer the source fills by writing 0/1 bytes is an instance of this. -/
def buildMask (n : Nat) (f : Nat → Bool) : Nat :=
  (List.range n).foldl (fun acc i => if f i then acc ||| (1 <<< i) else acc) 0

/-- `toBinary` (part_004 lines 153–164): flat RGBA stream, 4 bytes per pixel in
order R,G,B,A; a pixel with alpha < 50 is background, otherwise it is
foreground iff the luminance `0.299R + 0.587G + 0.114B` is below the
threshold.  Pixels are consumed left to right, pixel `k` becoming cell `k`
(bit `k`); a trailing fragment of fewer than 4 bytes produces no cell. -/
def toBinary (threshold : Rat) : List Nat → Nat
  | r :: g :: b :: a :: rest =>
      (if a < 50 then 0
       else if (299 : Rat)/1000 * r + (587 : Rat)/1000 * g + (114 : Rat)/1000 * b < threshold
       then 1 else 0) + 2 * toBinary threshold rest
  | _ => 0

/-- Modelled rendering of a binary mask with `n` cells as an opaque grayscale
image with values in {0,1}·255, cell by cell in row-major order: the
pipeline's contract (spec §4.1) is dark-on-light line art, so a foreground
cell (mask value 1, i.e. an odd bit) renders as black (0,0,0) and a
background cell as white (255,255,255), both fully opaque. -/
def renderMask : Nat → Nat → List Nat
  | 0, _ => []
  | n+1, m => (if m % 2 = 1 then [0, 0, 0, 255] else [255, 255, 255, 255]) ++ renderMask n (m / 2)

/-- Squared Euclidean distance of two real-valued points. -/
def distSq (a b : RPt) : Rat := (a.1 - b.1)^2 + (a.2 - b.2)^2

/-- One output point of the window-3 moving average of part_004 lines 379–388:
the mean of the point and its existing immediate neighbours (window truncated
at the ends).  Only evaluated at `i < p.length`. -/
def smoothAt (p : List RPt) (i : Nat) : RPt :=
  let prev : List RPt := if i = 0 then [] else [p.getD (i-1) (0, 0)]
  let next : List RPt := if i + 1 < p.length then [p.getD (i+1) (0, 0)] else []
  let win : List RPt := prev ++ [p.getD i (0, 0)] ++ next
  ((win.map Prod.fst).sum / win.length, (win.map Prod.snd).sum / win.length)

/-- Window-3 moving-average smoothing (part_004 lines 379–388). -/
def smoothPts (p : List RPt) : List RPt :=
  (List.range p.length).map (smoothAt p)

/-- The working point list `p` of `optimizePath` (part_004 lines 377–389):
the real-valued copy of the path, smoothed when it has more than
`wSize = 3` points. -/
def optPoints (path : List GPt) : List RPt :=
  if 3 < (path.map (fun q => ((q.1 : Rat), (q.2 : Rat)))).length
  then smoothPts (path.map (fun q => ((q.1 : Rat), (q.2 : Rat))))
  else path.map (fun q => ((q.1 : Rat), (q.2 : Rat)))

/-- The closure test of `optimizePath` (part_004 lines 390–394): `d < 20` for
OUTLINE, `d < 5` for CENTERLINE, with `d = ‖start − end‖`; rendered on
squares (`d² < 400` resp. `d² < 25`), equivalent since both sides of the
source's comparison are nonnegative. -/
def optClosed (path : List GPt) (ty : PathType) : Prop :=
  (ty = .OUTLINE ∧
      distSq ((optPoints path).headD (0, 0)) ((optPoints path).getLastD (0, 0)) < 400) ∨
    (ty = .CENTERLINE ∧
      distSq ((optPoints path).headD (0, 0)) ((optPoints path).getLastD (0, 0)) < 25)

instance (path : List GPt) (ty : PathType) : Decidable (optClosed path ty) := by
  unfold optClosed; infer_instance

/-- `optimizePath` (part_004 lines 375–397).  Paths of fewer than 2 points
are rejected; the source's local values `p`, `st`/`en` and `closed` are the
named functions `optPoints` and `optClosed` above.  When the closure test
fires, the last point is overwritten with the first (`p[p.length-1] =
[st[0], st[1]]`).  The `params` argument is accepted but unused, exactly as
in the source. -/
def optimizePath (path : List GPt) (_params : ProcessingParams) (ty : PathType) :
    Option OptimizedPath :=
  if path.length < 2 then none
  else if optClosed path ty
  then some ⟨(optPoints path).dropLast ++ [(optPoints path).headD (0, 0)], true, 0, ty⟩
  else some ⟨optPoints path, false, 0, ty⟩

/-- Stage A's closure forcing `opt.isClosed = true` (part_004 line 86): only
the flag is set; the points are not touched. -/
def forceClosed (o : OptimizedPath) : OptimizedPath := { o with isClosed := true }

/-- Squared length of the chord `a b` — the `denominator²` of
`perpendicularDistance` (imageProcessor.ts lines 246–253). -/
def chordDen (a b : RPt) : Rat := (b.2 - a.2)^2 + (b.1 - a.1)^2

/-- Absolute numerator of `perpendicularDistance` (imageProcessor.ts lines
246–253). -/
def chordNum (p a b : RPt) : Rat :=
  |(b.2 - a.2) * p.1 - (b.1 - a.1) * p.2 + b.1 * a.2 - b.2 * a.1|

/-- Strictly monotone stand-in for the perpendicular distance of `p` to the
chord `a b`: within one RDP call the chord is fixed, so comparing these values
is equivalent to comparing the source's `num/sqrt den` distances; in the
degenerate case `a = b` the source falls back to `dist p a`, whose square we
use. -/
def rdpMeasure (a b p : RPt) : Rat :=
  if chordDen a b = 0 then distSq p a else chordNum p a b

/-- The `d > dmax` max-selection loop of `ramerDouglasPeucker`
(imageProcessor.ts lines 229–235): strictly larger measures replace the
incumbent, ties keep the earlier index. -/
def rdpScan (a b : RPt) : List (Nat × RPt) → Nat × Rat → Nat × Rat
  | [], acc => acc
  | (i, p) :: rest, acc =>
      rdpScan a b rest (if rdpMeasure a b p > acc.2 then (i, rdpMeasure a b p) else acc)

/-- The test `dmax > epsilon` in exact arithmetic.  For a nondegenerate chord,
`num/sqrt den > eps  ↔  num² > eps²·den` (both `num` and `eps` nonnegative in
every use site); for a degenerate chord, `sqrt dsq > eps  ↔  dsq > eps²`. -/
def rdpExceeds (a b : RPt) (eps best : Rat) : Bool :=
  if chordDen a b = 0 then decide (best > eps^2)
  else decide (best^2 > eps^2 * chordDen a b)

/-- The `index`/`dmax` pair after the scan of interior points `1 … end−1`
against the chord from the first to the last point (imageProcessor.ts lines
225–235). -/
def rdpIdx (ps : List RPt) : Nat × Rat :=
  rdpScan (ps.headD (0, 0)) (ps.getLastD (0, 0))
    (List.enumFrom 1 ((ps.drop 1).dropLast)) (0, 0)

/-- Fuel-indexed body of `ramerDouglasPeucker` (imageProcessor.ts lines
222–244 and 518–531, identical logic): keep inputs of ≤ 2 points; otherwise
find the interior point of maximum perpendicular distance to the chord
(`rdpIdx`); if it exceeds `eps`, recurse on `points.slice(0, index+1)` and
`points.slice(index)` and glue (dropping the duplicated split point);
otherwise return the two endpoints.  The recursion depth is bounded by the
length, so `length` fuel is always sufficient. -/
def rdpGo (eps : Rat) : Nat → List RPt → List RPt
  | 0, ps => ps
  | fuel+1, ps =>
      if ps.length ≤ 2 then ps else
      if rdpExceeds (ps.headD (0, 0)) (ps.getLastD (0, 0)) eps (rdpIdx ps).2 then
        (rdpGo eps fuel (ps.take ((rdpIdx ps).1 + 1))).dropLast ++
          rdpGo eps fuel (ps.drop (rdpIdx ps).1)
      else [ps.headD (0, 0), ps.getLastD (0, 0)]

/-- `ramerDouglasPeucker` (imageProcessor.ts): Ramer–Douglas–Peucker polyline
simplification with tolerance `eps`. -/
def ramerDouglasPeucker (points : List RPt) (eps : Rat) : List RPt :=
  rdpGo eps points.length points

/-- One 4-neighbour dilation pass (the loop body of `dilateMask`, part_004
lines 169–183).  The source writes 1 into a fresh zero buffer at every
foreground cell of `curr` and at its in-bounds N/S/E/W neighbours, reading
only `curr`; since every write stores 1 into a zero-initialised buffer, the
pass is exactly this per-cell formula: result cell `(x,y)` is 1 iff `(x,y)`
itself or one of its in-bounds 4-neighbours is 1 in `curr`. -/
def dilateOnce (m : Nat) (w h : Nat) : Nat :=
  buildMask (w*h) fun i =>
    let x := i % w
    let y := i / w
    decide (maskGet m i = 1 ∨ (0 < x ∧ maskGet m (i-1) = 1) ∨ (x+1 < w ∧ maskGet m (i+1) = 1)
      ∨ (0 < y ∧ maskGet m (i-w) = 1) ∨ (y+1 < h ∧ maskGet m (i+w) = 1))

/-- `dilateMask` (part_004 lines 166–186): `r` iterated passes; `r = 0`
returns the input mask unchanged. -/
def dilateMask (m : Nat) (w h : Nat) : Nat → Nat
  | 0 => m
  | r+1 => dilateOnce (dilateMask m w h r) w h

/-- Conditional push of the background flood fill (part_004 lines 198–206):
a neighbour is pushed (and simultaneously marked visited/background) iff its
coordinates are in bounds (`ok` carries the `≥ 0` half of the bound check for
coordinates the source computes as `x-1`/`y-1`), it is unvisited, and the
binary mask is 0 there.  The stack is a LIFO list with its head as top.
`visited` and the output `mask` are 0/1 byte buffers written in lockstep in
the source, so one bitmask (read with `maskGet`, like every other buffer)
represents both. -/
def floodPush (bin : Nat) (w h : Nat) (st : List GPt × Nat)
    (nx ny : Nat) (ok : Bool) : List GPt × Nat :=
  if ok ∧ nx < w ∧ ny < h ∧ maskGet st.2 (ny*w+nx) = 0 ∧ maskGet bin (ny*w+nx) = 0
  then ((nx, ny) :: st.1, st.2 ||| (1 <<< (ny*w+nx))) else st

/-- Main loop of `floodFillBackground` (part_004 lines 195–208): pop a cell,
try to push its four neighbours in the source order
`[x+1,y], [x-1,y], [x,y+1], [x,y-1]` (so `[x,y-1]`, pushed last, is popped
first, matching JS `push`/`pop`). -/
def floodLoop (bin : Nat) (w h : Nat) : Nat → List GPt → Nat → Nat
  | 0, _, vis => vis
  | _+1, [], vis => vis
  | fuel+1, (x, y) :: rest, vis =>
      let s1 := floodPush bin w h (rest, vis) (x+1) y true
      let s2 := floodPush bin w h s1 (x-1) y (decide (0 < x))
      let s3 := floodPush bin w h s2 x (y+1) true
      let s4 := floodPush bin w h s3 x (y-1) (decide (0 < y))
      floodLoop bin w h fuel s4.1 s4.2

/-- `floodFillBackground` (part_004 lines 188–210): 4-connected flood of the
0-cells from `(0,0)`, which is marked up front without inspecting the mask
(initial bitmask `1`, bit 0 set).  The returned bitmask is the `mask` buffer
the source returns: 1 exactly at the cells marked background.  Every
iteration pops one cell and each pushed cell is marked, so the loop performs
at most `w*h` iterations; fuel `w*h + 1` is always sufficient. -/
def floodFillBackground (bin : Nat) (w h : Nat) : Nat :=
  floodLoop bin w h (w*h + 1) [(0, 0)] 1

/-- `invertMask` (part_004 lines 212–216): elementwise `1 ↔ 0` over the `n`
cells of the buffer (its callers pass buffers of `w*h` cells). -/
def invertMask (n m : Nat) : Nat :=
  buildMask n fun i => !m.testBit i

/-- `maskToRegion` (part_004 lines 218–224): collect all 1-cells of a
`w*h`-cell mask, in row-major order, into a pseudo-region. -/
def maskToRegion (m : Nat) (w h : Nat) : Region :=
  let pixels := (List.range (w*h)).filterMap fun i =>
    if maskGet m i = 1 then some (i % w, i / w) else none
  { pixels := pixels, avgWidth := 0, area := pixels.length,
    minX := 0, maxX := w, minY := 0, maxY := h }

/-- Bounds-tracking accumulator of `floodFill` (part_004 lines 241–267). -/
structure RFState where
  pixels : List GPt
  minX : Nat
  maxX : Nat
  minY : Nat
  maxY : Nat
deriving DecidableEq

/-- Conditional push of the region flood fill (part_004 lines 253–261): like
`floodPush` but flooding 1-cells, marking visited at push time. -/
def rfPush (bin : Nat) (w h : Nat) (st : List GPt × Finset Nat)
    (nx ny : Nat) (ok : Bool) : List GPt × Finset Nat :=
  if ok ∧ nx < w ∧ ny < h ∧ maskGet bin (ny*w+nx) = 1 ∧ (ny*w+nx) ∉ st.2
  then ((nx, ny) :: st.1, insert (ny*w+nx) st.2) else st

/-- Main loop of the region flood fill (part_004 lines 247–263): pop a cell,
record it in the pixel list (pixels are collected in pop order) and extend the
bounds, then push the four neighbours in source order. -/
def regionLoop (bin : Nat) (w h : Nat) :
    Nat → List GPt → Finset Nat → RFState → RFState × Finset Nat
  | 0, _, vis, acc => (acc, vis)
  | _+1, [], vis, acc => (acc, vis)
  | fuel+1, (x, y) :: rest, vis, acc =>
      let acc' : RFState :=
        { pixels := acc.pixels ++ [(x, y)],
          minX := min acc.minX x, maxX := max acc.maxX x,
          minY := min acc.minY y, maxY := max acc.maxY y }
      let s1 := rfPush bin w h (rest, vis) (x+1) y true
      let s2 := rfPush bin w h s1 (x-1) y (decide (0 < x))
      let s3 := rfPush bin w h s2 x (y+1) true
      let s4 := rfPush bin w h s3 x (y-1) (decide (0 < y))
      regionLoop bin w h fuel s4.1 s4.2 acc'

/-- `floodFill` (part_004 lines 241–267): 4-connected flood of the 1-cells
from a seed, threading the caller's visited set; computes the region's pixel
list, area, bounds, and the crude width estimate
`avgWidth = area / max(boundsWidth, boundsHeight) * 2`. -/
def floodFill (bin : Nat) (w h : Nat) (vis : Finset Nat) (sx sy : Nat) :
    Region × Finset Nat :=
  let r := regionLoop bin w h (w*h + 1) [(sx, sy)] (insert (sy*w+sx) vis)
      ⟨[], sx, sx, sy, sy⟩
  ({ pixels := r.1.pixels,
     area := r.1.pixels.length,
     avgWidth := (r.1.pixels.length : Rat) / (max (r.1.maxX - r.1.minX + 1) (r.1.maxY - r.1.minY + 1) : Nat) * 2,
     minX := r.1.minX, maxX := r.1.maxX, minY := r.1.minY, maxY := r.1.maxY }, r.2)

/-- Collect a flooded region iff it is nonempty (`if (r.pixels.length > 0)
regions.push(r)`, part_004 line 234); the updated visited set is adopted
either way. -/
def regKeep (st : List Region × Finset Nat) (r : Region × Finset Nat) :
    List Region × Finset Nat :=
  (if r.1.pixels.length > 0 then st.1 ++ [r.1] else st.1, r.2)

/-- `identifyRegions` (part_004 lines 226–239): row-major scan; every
unvisited foreground cell seeds a flood fill; nonempty regions are collected
in discovery order. -/
def identifyRegions (bin : Nat) (w h : Nat) : List Region :=
  ((List.range (w*h)).foldl (fun (st : List Region × Finset Nat) i =>
      if maskGet bin i = 1 ∧ i ∉ st.2 then
        regKeep st (floodFill bin w h st.2 (i % w) (i / w))
      else st) ([], ∅)).1

/-- The 8-neighbour offsets in clockwise order N, NE, E, SE, S, SW, W, NW
(part_004 line 282 and line 360). -/
def dirs8 : List (Int × Int) :=
  [(0, -1), (1, -1), (1, 0), (1, 1), (0, 1), (-1, 1), (-1, 0), (-1, -1)]

/-- Move from `(x,y)` one step in 8-direction `d`, returning the target iff it
is inside the `w × h` grid (the source computes the possibly-negative
candidate and then bounds-checks it). -/
def moveDir (w h x y d : Nat) : Option GPt :=
  let off := dirs8.getD d (0, 0)
  let qx : Int := (x : Int) + off.1
  let qy : Int := (y : Int) + off.2
  if 0 ≤ qx ∧ qx < (w : Int) ∧ 0 ≤ qy ∧ qy < (h : Int)
  then some (qx.toNat, qy.toNat) else none

/-- Neighbour search of the Moore walk (part_004 lines 291–302): scan the 8
directions clockwise starting from `(cdir + 5) mod 8` and take the first
in-bounds foreground neighbour, returning it with the direction taken. -/
def contourNext (bin : Nat) (w h x y cdir : Nat) : Option (GPt × Nat) :=
  (List.range 8).findSome? fun i =>
    let d := (cdir + 5 + i) % 8
    match moveDir w h x y d with
    | some (nx, ny) => if maskGet bin (ny*w+nx) = 1 then some ((nx, ny), d) else none
    | none => none

/-- Moore-contour walk (part_004 lines 287–305): record the current pixel,
then move to the neighbour found by `contourNext`; stop when no neighbour
exists, when the walk returns to the start pixel (which is then not recorded
again), or when the step budget runs out (`steps < maxSteps = 20000` is
checked after each move, so at most 20000 pixels are recorded: the top-level
call passes fuel `maxSteps − 1`). -/
def contourWalk (bin : Nat) (w h : Nat) (start : GPt) :
    Nat → GPt → Nat → List GPt
  | 0, pos, _ => [pos]
  | fuel+1, pos, cdir =>
      pos :: match contourNext bin w h pos.1 pos.2 cdir with
        | none => []
        | some (p', d') => if p' = start then [] else contourWalk bin w h start fuel p' d'

/-- `traceContour` (part_004 lines 269–310): for each region pixel (in the
region's stored order) that is not yet locally visited and is a border pixel
(on the image edge, or with a background 4-neighbour), run a Moore walk from
it with initial direction 7; all walked pixels are marked visited, and walks
of more than 2 pixels are kept. -/
def traceContour (region : Region) (bin : Nat) (w h : Nat) : List (List GPt) :=
  (region.pixels.foldl (fun (st : List (List GPt) × Finset Nat) p =>
    if (p.2*w+p.1) ∈ st.2 then st else
    let isBorder :=
      p.1 = 0 ∨ p.1 = w-1 ∨ p.2 = 0 ∨ p.2 = h-1 ∨
      maskGet bin (p.2*w+p.1-1) = 0 ∨ maskGet bin (p.2*w+p.1+1) = 0 ∨
      maskGet bin ((p.2-1)*w+p.1) = 0 ∨ maskGet bin ((p.2+1)*w+p.1) = 0
    if isBorder then
      let contour := contourWalk bin w h p 19999 p 7
      (if contour.length > 2 then st.1 ++ [contour] else st.1,
       st.2 ∪ (contour.map fun c => c.2*w+c.1).toFinset)
    else st) ([], ∅)).1

/-- `extractRegionBinary` (part_004 lines 312–316): a full-size mask with 1
exactly at the region's pixels.  The `fullBin` argument of the source is
unused there and omitted here. -/
def extractRegionBinary (r : Region) (w h : Nat) : Nat :=
  buildMask (w*h) fun i => decide ((i % w, i / w) ∈ r.pixels)

/-- Neighbour value `p_k` for the Zhang–Suen conditions; only evaluated at
interior cells, where all eight neighbours are in range. -/
def zsP (m : Nat) (w x y : Nat) : Nat := maskGet m (y*w+x)

/-- The cyclic neighbour sequence `p2 … p9` of the Zhang–Suen conditions at
`(x,y)`, in the source's order N, NE, E, SE, S, SW, W, NW. -/
def zsNbrs (m : Nat) (w x y : Nat) : List Nat :=
  [zsP m w x (y-1), zsP m w (x+1) (y-1), zsP m w (x+1) y, zsP m w (x+1) (y+1),
   zsP m w x (y+1), zsP m w (x-1) (y+1), zsP m w (x-1) y, zsP m w (x-1) (y-1)]

/-- `B(p1)`: the number of set neighbours (part_004 line 331). -/
def zsB (m : Nat) (w x y : Nat) : Nat := (zsNbrs m w x y).sum

/-- One term of `A(p1)`: a 0→1 transition from `a` to `b`. -/
def zsT (a b : Nat) : Nat := if a = 0 ∧ b = 1 then 1 else 0

/-- `A(p1)`: the number of 0→1 transitions in the cyclic sequence
`p2, p3, …, p9, p2` (part_004 lines 332–335). -/
def zsA (m : Nat) (w x y : Nat) : Nat :=
  zsT (zsP m w x (y-1)) (zsP m w (x+1) (y-1)) +
  zsT (zsP m w (x+1) (y-1)) (zsP m w (x+1) y) +
  zsT (zsP m w (x+1) y) (zsP m w (x+1) (y+1)) +
  zsT (zsP m w (x+1) (y+1)) (zsP m w x (y+1)) +
  zsT (zsP m w x (y+1)) (zsP m w (x-1) (y+1)) +
  zsT (zsP m w (x-1) (y+1)) (zsP m w (x-1) y) +
  zsT (zsP m w (x-1) y) (zsP m w (x-1) (y-1)) +
  zsT (zsP m w (x-1) (y-1)) (zsP m w x (y-1))

/-- The Zhang–Suen deletion conditions for subiteration `s` at interior cell
`(x,y)` (part_004 lines 330–339): `2 ≤ B ≤ 6`, exactly one 0→1 transition in
the cyclic neighbour sequence, and the two subiteration-specific products
(`p2·p4·p6` and `p4·p6·p8` for subiteration 1, `p2·p4·p8` and `p2·p6·p8` for
subiteration 2) are zero. -/
def zsCond (m : Nat) (w s x y : Nat) : Prop :=
  2 ≤ zsB m w x y ∧ zsB m w x y ≤ 6 ∧ zsA m w x y = 1
    ∧ (if s = 1 then zsP m w x (y-1) * zsP m w (x+1) y * zsP m w x (y+1)
       else zsP m w x (y-1) * zsP m w (x+1) y * zsP m w (x-1) y) = 0
    ∧ (if s = 1 then zsP m w (x+1) y * zsP m w x (y+1) * zsP m w (x-1) y
       else zsP m w x (y-1) * zsP m w x (y+1) * zsP m w (x-1) y) = 0

instance (m w s x y : Nat) : Decidable (zsCond m w s x y) := by
  unfold zsCond; infer_instance

/-- One Zhang–Suen subiteration (part_004 lines 325–342): the deletion list is
computed from the unmodified mask and then applied, i.e. a parallel update;
border rows/columns are never deleted.  Result cell `i` is 1 iff it was 1 and
was not deleted. -/
def zsSub (m : Nat) (w h s : Nat) : Nat :=
  buildMask (w*h) fun i =>
    let x := i % w
    let y := i / w
    decide (maskGet m i = 1 ∧
      ¬(1 ≤ x ∧ x + 1 < w ∧ 1 ≤ y ∧ y + 1 < h ∧ zsCond m w s x y))

/-- One pass of the outer Zhang–Suen loop: subiteration 1 then subiteration 2
(part_004 line 324). -/
def zsPass (m : Nat) (w h : Nat) : Nat := zsSub (zsSub m w h 1) w h 2

/-- Outer loop of `zhangSuen` (part_004 lines 318–346): iterate passes until a
full pass deletes nothing.  Deletions are the only changes and the masks that
reach this loop carry exactly `w*h` cells, so "no deletion" is exactly
`zsPass m w h = m`. -/
def zhangSuenGo (w h : Nat) : Nat → Nat → Nat
  | 0, m => m
  | f+1, m => let m' := zsPass m w h; if m' = m then m else zhangSuenGo w h f m'

/-- `zhangSuen` (part_004 lines 318–346).  Each non-fixpoint pass clears at
least one foreground cell, so `w*h + 1` passes always reach the fixpoint. -/
def zhangSuen (bin : Nat) (w h : Nat) : Nat := zhangSuenGo w h (w*h + 1) bin

/-- Neighbour search of the skeleton walk (part_004 lines 360–365): first
unvisited skeleton pixel among the 8 neighbours in the fixed order
N, NE, E, SE, S, SW, W, NW. -/
def skelNext (skel : Nat) (w h : Nat) (vis : Finset Nat) (x y : Nat) : Option GPt :=
  (List.range 8).findSome? fun d =>
    match moveDir w h x y d with
    | some (nx, ny) =>
        if maskGet skel (ny*w+nx) = 1 ∧ (ny*w+nx) ∉ vis then some (nx, ny) else none
    | none => none

/-- Prepend a pixel to a chain-walk result. -/
def consFst (pos : GPt) (r : List GPt × Finset Nat) : List GPt × Finset Nat :=
  (pos :: r.1, r.2)

/-- The chain walk of `traceSkeleton` (part_004 lines 354–367).  The source
keeps a stack that always holds at most one cell: each iteration pops the
cell, appends it to the chain, marks it visited, and pushes the first
unvisited skeleton neighbour, if any.  We embed it as a direct walk: record
and mark the current cell, then continue with `skelNext` of the updated
visited set. -/
def skelWalk (skel : Nat) (w h : Nat) :
    Nat → GPt → Finset Nat → List GPt × Finset Nat
  | 0, pos, vis => ([pos], insert (pos.2*w+pos.1) vis)
  | fuel+1, pos, vis =>
      match skelNext skel w h (insert (pos.2*w+pos.1) vis) pos.1 pos.2 with
      | none => ([pos], insert (pos.2*w+pos.1) vis)
      | some p' => consFst pos (skelWalk skel w h fuel p' (insert (pos.2*w+pos.1) vis))

/-- Keep a walked chain iff it has more than 2 pixels (`if (path.length > 2)
paths.push(path)`, part_004 line 368); the walk's visited set is adopted
either way. -/
def skelKeep (st : List (List GPt) × Finset Nat) (r : List GPt × Finset Nat) :
    List (List GPt) × Finset Nat :=
  (if r.1.length > 2 then st.1 ++ [r.1] else st.1, r.2)

/-- `traceSkeleton` (part_004 lines 348–373): row-major scan; every unvisited
skeleton pixel starts a greedy chain walk; chains of more than 2 pixels are
kept (shorter chains are discarded, but their pixels stay visited). -/
def traceSkeleton (skel : Nat) (w h : Nat) : List (List GPt) :=
  ((List.range (w*h)).foldl (fun (st : List (List GPt) × Finset Nat) i =>
      if maskGet skel i = 1 ∧ i ∉ st.2 then
        skelKeep st (skelWalk skel w h (w*h + 1) (i % w, i / w) st.2)
      else st) ([], ∅)).1

/-- `calcPolyArea` (part_004 lines 399–407): absolute shoelace area with
wrap-around successor. -/
def calcPolyArea (pts : List GPt) : Rat :=
  |(List.range pts.length).foldl (fun a i =>
      let p := pts.getD i (0, 0)
      let q := pts.getD ((i+1) % pts.length) (0, 0)
      a + (p.1 : Rat) * q.2 - (p.2 : Rat) * q.1) 0| / 2

/-- The best-path selection of Stage A (part_004 lines 78–83): the first
polygon of strictly largest `calcPolyArea`, starting from `maxArea = 0`, so a
polygon of area 0 is never selected. -/
def pickBest (paths : List (List GPt)) : Option (List GPt) :=
  (paths.foldl (fun (st : Rat × Option (List GPt)) p =>
    if calcPolyArea p > st.1 then (calcPolyArea p, some p) else st) (0, none)).2

/-- Source interface `ProcessingStats`. -/
structure ProcessingStats where
  centerlineCount : Nat
  outlineCount : Nat
  gapsDetected : Nat
  totalPaths : Nat
deriving DecidableEq

/-- The path-level result of one pipeline invocation (the `svgContent`
strings of `ProcessingResult` are generated from these three lists by
`generateSVG`; see `svgVertices`). -/
structure PipelineResult where
  allPaths : List OptimizedPath
  cutPaths : List OptimizedPath
  engravePaths : List OptimizedPath
  stats : ProcessingStats
deriving DecidableEq

/-- The white-border padding added before binarization (part_004 line 53). -/
def padding : Nat := 10

/-- Stage A — silhouette (part_004 lines 68–88): dilate by 4, flood the
background, invert, take all silhouette pixels as one region, trace its
contours, keep the polygon of maximum area, optimise it as OUTLINE and force
`isClosed = true`. -/
def silhouettePaths (bin : Nat) (w h : Nat) (params : ProcessingParams) :
    List OptimizedPath :=
  let dilated := dilateMask bin w h 4
  let silhouetteMask := invertMask (w*h) (floodFillBackground dilated w h)
  let region := maskToRegion silhouetteMask w h
  if region.pixels.length > 0 then
    match pickBest (traceContour region silhouetteMask w h) with
    | some best =>
        match optimizePath best params .OUTLINE with
        | some opt => [forceClosed opt]
        | none => []
    | none => []
  else []

/-- Per-region processing of Stage B step 5 (part_004 lines 108–125): thick
regions (`avgWidth > fillTh`) are contour-traced as OUTLINE; thin regions are
skeletonised and chain-traced as CENTERLINE. -/
def regionPaths (bin : Nat) (w h : Nat) (params : ProcessingParams)
    (fillTh : Rat) (r : Region) : List OptimizedPath :=
  if r.avgWidth > fillTh then
    (traceContour r bin w h).filterMap fun p => optimizePath p params .OUTLINE
  else
    let rb := extractRegionBinary r w h
    let skel := zhangSuen rb w h
    (traceSkeleton skel w h).filterMap fun p => optimizePath p params .CENTERLINE

/-- Insertion step of the descending-area sort of part_004 line 96. -/
def insertReg (r : Region) : List Region → List Region
  | [] => [r]
  | s :: rest => if r.area ≤ s.area then s :: insertReg r rest else r :: s :: rest

/-- The sort `validRegions.sort((a, b) => b.area - a.area)` (part_004 line
96): descending by area (an insertion sort; every pipeline observable used
below depends only on the multiset of survivors and the maximal area, which
any descending reordering preserves). -/
def sortRegions (l : List Region) : List Region := l.foldl (fun acc r => insertReg r acc) []

/-- Stage B's `validRegions` (part_004 lines 93–96): the found regions above
the noise floor (`area > noiseThreshold` with `noiseThreshold = 15`), sorted
by descending area. -/
def validRegions (bin : Nat) (w h : Nat) : List Region :=
  sortRegions ((identifyRegions bin w h).filter fun r => r.area > 15)

/-- Stage B's `maxArea` (part_004 line 101): the area of the head of the
descending-sorted valid regions, 0 when there are none. -/
def stageBMaxArea (bin : Nat) (w h : Nat) : Nat :=
  match validRegions bin w h with
  | [] => 0
  | r :: _ => r.area

/-- Stage B's `areaCutoff` (part_004 lines 98–102):
`maxArea · ((100 − normalizedDetail)/100)³ · 0.02` with
`normalizedDetail = min(100, max(1, detailLevel))`. -/
def areaCutoff (bin : Nat) (w h : Nat) (detail : Nat) : Rat :=
  (stageBMaxArea bin w h : Rat) *
    (((100 : Rat) - (min 100 (max 1 detail) : Nat)) / 100)^3 * (2/100)

/-- Stage B's `fillTh = 2 + (sens/100) * 300` (part_004 line 106). -/
def fillThOf (sens : Nat) : Rat := 2 + ((sens : Rat) / 100) * 300

/-- Stage B — details (part_004 lines 90–126), run only when
`detailLevel > 0`: enumerate regions, apply the noise floor and the sort
(`validRegions`), drop regions with area below `areaCutoff`, and process each
survivor with `regionPaths`. -/
def innerPaths (bin : Nat) (w h : Nat) (params : ProcessingParams) :
    List OptimizedPath :=
  if params.detailLevel > 0 then
    ((validRegions bin w h).filter fun r =>
        (r.area : Rat) ≥ areaCutoff bin w h params.detailLevel).flatMap
      (regionPaths bin w h params (fillThOf params.centerlineSensitivity))
  else []

/-- Stage C — layer assembly and statistics (part_004 lines 128–148). -/
def processBin (bin : Nat) (w h : Nat) (params : ProcessingParams) : PipelineResult :=
  let sil := silhouettePaths bin w h params
  let inner := innerPaths bin w h params
  let innerOutlines := inner.filter fun p => p.pathType = .OUTLINE
  let engrave := inner.filter fun p => p.pathType = .CENTERLINE
  let all := sil ++ inner
  { allPaths := all,
    cutPaths := sil ++ innerOutlines,
    engravePaths := engrave,
    stats := { centerlineCount := engrave.length,
               outlineCount := sil.length + innerOutlines.length,
               gapsDetected := 0,
               totalPaths := all.length } }

/-- `processWithParams` from the padded pixel buffer on (part_004 lines
65–148): binarize with threshold 180, then run the three stages.  `w` and `h`
are the padded dimensions.  The embedding is total: every failure mode the
spec mentions (empty masks, all-background input, degenerate silhouette) flows
through as empty path lists, never as an error. -/
def processWithParams (data : List Nat) (w h : Nat) (params : ProcessingParams) :
    PipelineResult :=
  processBin (toBinary 180 data) w h params

/-- The vertex coordinates written by `generateSVG` (part_004 lines 412–417)
before decimal formatting: every point of every path, offset by `−pad`. -/
def svgVertices (paths : List OptimizedPath) (pad : Nat) : List RPt :=
  paths.flatMap fun p => p.points.map fun pt => (pt.1 - (pad : Rat), pt.2 - (pad : Rat))

/-- The all-zero dummy region (used only as a `headD` default in witnesses). -/
def emptyRegion : Region := ⟨[], 0, 0, 0, 0, 0, 0⟩

/-! ## C7 — binarization is idempotent on rendered binary masks -/

/-- C7: binarization is idempotent: for every binary mask (of `n` cells,
i.e. every `m < 2^n`), rendering it as an opaque grayscale image with values
in {0,1}·255 and binarizing that image with the pipeline's rule (alpha ≥ 50,
luminance `0.299R + 0.587G + 0.114B` compared against T = 180) yields the
same mask back. -/
theorem toBinary_renderMask_idempotent :
    ∀ (n m : Nat), m < 2^n → toBinary 180 (renderMask n m) = m := by
  intro n
  induction n with
  | zero =>
      intro m hm
      have : m = 0 := by omega
      subst this
      simp [renderMask, toBinary]
  | succ n ih =>
      intro m hm
      have hdiv : m / 2 < 2^n := by
        have : m < 2^n * 2 := by
          have := hm; rw [pow_succ] at this; omega
        omega
      have hrec := ih (m / 2) hdiv
      by_cases h : m % 2 = 1
      · have : renderMask (n+1) m = 0 :: 0 :: 0 :: 255 :: renderMask n (m / 2) := by
          simp [renderMask, h]
        rw [this]
        simp only [toBinary, hrec]
        norm_num
        omega
      · have h0 : m % 2 = 0 := by omega
        have : renderMask (n+1) m = 255 :: 255 :: 255 :: 255 :: renderMask n (m / 2) := by
          simp [renderMask, h]
        rw [this]
        simp only [toBinary, hrec]
        norm_num
        omega

/-- Witness for C7 at the concrete 4-cell mask `0b1010`. -/
theorem toBinary_renderMask_idempotent_witness :
    10 < 2^4 ∧ toBinary 180 (renderMask 4 10) = 10 :=
  ⟨by norm_num, toBinary_renderMask_idempotent 4 10 (by norm_num)⟩

/-! ## C3 — the parameterised optimizer performs no RDP -/

/-- Length is preserved by smoothing. -/
theorem smoothPts_length (p : List RPt) : (smoothPts p).length = p.length := by
  simp [smoothPts]

/-- The optimizer's working list has the same length as its input. -/
theorem optPoints_length (path : List GPt) : (optPoints path).length = path.length := by
  unfold optPoints
  split <;> simp [smoothPts_length]

/-- Counterexample to C3: on a 5-point collinear polyline the optimizer of
part_004 emits its 5 smoothed points, not the 2-point RDP (ε = 0.8)
simplification of the smoothed polyline that the claim prescribes. -/
theorem optimizePath_is_not_rdp_of_smoothed :
    (optimizePath [(0,0),(10,0),(20,0),(30,0),(40,0)] ⟨50, 50⟩ PathType.CENTERLINE).map
        OptimizedPath.points ≠
      some (ramerDouglasPeucker
        (smoothPts (([(0,0),(10,0),(20,0),(30,0),(40,0)] : List GPt).map
          (fun q => ((q.1 : Rat), (q.2 : Rat))))) (8/10)) := by
  decide

/-- C3 amended: `optimizePath` applies no simplification at all — it emits
exactly as many points as it receives (the moving average is length-preserving
and the closure snap only rewrites the last point); the RDP (ε = 0.8) step of
the spec exists only in the skeleton-only variant's `optimizePaths`
(imageProcessor.ts lines 150–199). -/
theorem optimizePath_length (path : List GPt) (params : ProcessingParams)
    (ty : PathType) (o : OptimizedPath) (h : optimizePath path params ty = some o) :
    o.points.length = path.length := by
  by_cases hlen : path.length < 2
  · simp [optimizePath, hlen] at h
  · simp only [optimizePath, if_neg hlen] at h
    split_ifs at h <;>
      (cases h
       simp only [List.length_append, List.length_dropLast, List.length_cons,
         List.length_nil, optPoints_length]
       try omega)

/-- Witness for C3's amended theorem at a concrete 2-point path. -/
theorem optimizePath_length_witness :
    optimizePath [(0,0),(3,4)] ⟨50, 50⟩ PathType.CENTERLINE =
        some ⟨[(0,0),(3,4)], false, 0, PathType.CENTERLINE⟩ ∧
      (⟨[(0,0),(3,4)], false, 0, PathType.CENTERLINE⟩ : OptimizedPath).points.length =
        ([(0,0),(3,4)] : List GPt).length :=
  ⟨by decide, optimizePath_length [(0,0),(3,4)] ⟨50, 50⟩ PathType.CENTERLINE
    ⟨[(0,0),(3,4)], false, 0, PathType.CENTERLINE⟩ (by decide)⟩

/-! ## C4 — the noise floor drops regions of area exactly 15 -/

/-- A 7×7 mask whose single region is a 3×5 block of exactly 15 pixels. -/
def binC4a : Nat := buildMask (7*7) fun i =>
  decide (2 ≤ i % 7 ∧ i % 7 ≤ 4 ∧ 1 ≤ i / 7 ∧ i / 7 ≤ 5)

/-- A 6×6 mask whose single region is a 4×4 block of 16 pixels. -/
def binC4b : Nat := buildMask (6*6) fun i =>
  decide (1 ≤ i % 6 ∧ i % 6 ≤ 4 ∧ 1 ≤ i / 6 ∧ i / 6 ≤ 4)

/-- Counterexample to C4: on a mask whose single region has area exactly 15,
the claim "a region survives step 2 iff its area is ≥ 15" fails — the
source's filter `r.area > noiseThreshold` with `noiseThreshold = 15` drops
the region. -/
theorem noise_floor_drops_area_15 :
    ¬ (∀ r ∈ identifyRegions binC4a 7 7,
        (r ∈ (identifyRegions binC4a 7 7).filter (fun s => s.area > 15) ↔ 15 ≤ r.area)) := by
  decide

/-- C4 amended: a region found by the region finder survives the Stage B
noise floor iff its area is at least 16 (strictly greater than 15). -/
theorem noise_floor_keeps_iff_area_gt_15 (bin w h : Nat) (r : Region)
    (hr : r ∈ identifyRegions bin w h) :
    r ∈ (identifyRegions bin w h).filter (fun s => s.area > 15) ↔ 16 ≤ r.area := by
  simp [List.mem_filter, hr]
  omega

/-- Witness for C4's amended theorem on a 16-pixel region. -/
theorem noise_floor_keeps_iff_area_gt_15_witness :
    ((identifyRegions binC4b 6 6).headD emptyRegion ∈ identifyRegions binC4b 6 6) ∧
      ((identifyRegions binC4b 6 6).headD emptyRegion ∈
          (identifyRegions binC4b 6 6).filter (fun s => s.area > 15) ↔
        16 ≤ ((identifyRegions binC4b 6 6).headD emptyRegion).area) :=
  ⟨by decide, noise_floor_keeps_iff_area_gt_15 binC4b 6 6 _ (by decide)⟩

/-! ## C6 — RDP at ε = 0 is not the identity; what RDP does guarantee -/

/-- The scan never lowers the incumbent maximum. -/
theorem rdpScan_snd_le (a b : RPt) :
    ∀ (l : List (Nat × RPt)) (acc : Nat × Rat), acc.2 ≤ (rdpScan a b l acc).2 := by
  intro l
  induction l with
  | nil => intro acc; exact le_refl _
  | cons ip rest ih =>
      intro acc
      obtain ⟨i, p⟩ := ip
      simp only [rdpScan]
      refine le_trans ?_ (ih _)
      split
      · exact le_of_lt (by assumption)
      · exact le_refl _

/-- The scan either keeps its accumulator or returns an index from the list. -/
theorem rdpScan_result (a b : RPt) :
    ∀ (l : List (Nat × RPt)) (acc : Nat × Rat),
      rdpScan a b l acc = acc ∨ (rdpScan a b l acc).1 ∈ l.map Prod.fst := by
  intro l
  induction l with
  | nil => intro acc; exact Or.inl rfl
  | cons ip rest ih =>
      intro acc
      obtain ⟨i, p⟩ := ip
      simp only [rdpScan, List.map_cons, List.mem_cons]
      rcases ih (if rdpMeasure a b p > acc.2 then (i, rdpMeasure a b p) else acc) with h | h
      · rw [h]
        split
        · exact Or.inr (Or.inl rfl)
        · exact Or.inl rfl
      · exact Or.inr (Or.inr h)

/-- A passed `dmax > eps` test forces a strictly positive measure. -/
theorem rdpExceeds_pos {a b : RPt} {eps best : Rat}
    (h : rdpExceeds a b eps best = true) (hb : 0 ≤ best) : 0 < best := by
  unfold rdpExceeds at h
  split at h
  · have hlt := of_decide_eq_true h
    exact lt_of_le_of_lt (sq_nonneg eps) hlt
  · have hgt := of_decide_eq_true h
    rename_i hden
    have hdpos : 0 < chordDen a b := by
      have h0 : 0 ≤ chordDen a b := by unfold chordDen; positivity
      rcases lt_or_eq_of_le h0 with h' | h'
      · exact h'
      · exact absurd h'.symm hden
    have h1 : (0 : Rat) ≤ eps^2 * chordDen a b := by positivity
    have hsq : 0 < best^2 := lt_of_le_of_lt h1 hgt
    rcases lt_or_eq_of_le hb with h' | h'
    · exact h'
    · rw [← h'] at hsq; norm_num at hsq

/-- When the `dmax > eps` test passes, the split index is a genuine interior
index: at least 1 and at most `length − 2`. -/
theorem rdp_split_bounds (eps : Rat) (ps : List RPt) (hlen : ¬ ps.length ≤ 2)
    (hex : rdpExceeds (ps.headD (0, 0)) (ps.getLastD (0, 0)) eps (rdpIdx ps).2 = true) :
    1 ≤ (rdpIdx ps).1 ∧ (rdpIdx ps).1 + 2 ≤ ps.length := by
  have hge : (0 : Rat) ≤ (rdpIdx ps).2 := rdpScan_snd_le _ _ _ (0, 0)
  have hpos := rdpExceeds_pos hex hge
  rcases rdpScan_result (ps.headD (0, 0)) (ps.getLastD (0, 0))
      (List.enumFrom 1 ((ps.drop 1).dropLast)) (0, 0) with h | h
  · rw [show rdpIdx ps = rdpScan (ps.headD (0, 0)) (ps.getLastD (0, 0))
        (List.enumFrom 1 ((ps.drop 1).dropLast)) (0, 0) from rfl, h] at hpos
    norm_num at hpos
  · have h' : (rdpIdx ps).1 ∈ List.range' 1 ((ps.drop 1).dropLast).length := by
      rw [← List.enumFrom_map_fst]; exact h
    rw [List.mem_range'_1] at h'
    have : ((ps.drop 1).dropLast).length = ps.length - 2 := by
      simp only [List.length_dropLast, List.length_drop]
      omega
    omega

/-- Dropping the last point keeps the head of a list with at least 2 points. -/
theorem head?_dropLast_of_two_le {l : List RPt} (h : 2 ≤ l.length) :
    l.dropLast.head? = l.head? := by
  rw [List.head?_dropLast, if_pos (by omega)]

/-- The head survives `take (n+1)`. -/
theorem head?_take_succ (l : List RPt) (n : Nat) : (l.take (n+1)).head? = l.head? := by
  cases l <;> simp

/-- The last element survives `drop i` when `i` is in range. -/
theorem getLast?_drop_of_lt :
    ∀ (i : Nat) (l : List RPt), i < l.length → (l.drop i).getLast? = l.getLast?
  | 0, _, _ => rfl
  | i+1, a :: t, h => by
      rw [List.drop_succ_cons, getLast?_drop_of_lt i t (by simpa using h)]
      cases t with
      | nil => simp at h
      | cons b t' => simp

/-- A nonempty list's `head?` is its `headD`. -/
theorem head?_eq_some_headD {l : List RPt} (h : l ≠ []) (d : RPt) :
    l.head? = some (l.headD d) := by
  cases l with
  | nil => exact absurd rfl h
  | cons a t => rfl

/-- A nonempty list's `getLast?` is its `getLastD`. -/
theorem getLast?_eq_some_getLastD {l : List RPt} (h : l ≠ []) (d : RPt) :
    l.getLast? = some (l.getLastD d) := by
  cases hl : l.getLast? with
  | none => exact absurd (List.getLast?_eq_none_iff.mp hl) h
  | some y => simp [List.getLastD_eq_getLast?, hl]

/-- RDP keeps at least the two endpoints. -/
theorem rdpGo_length (eps : Rat) :
    ∀ (fuel : Nat) (ps : List RPt), 2 ≤ ps.length → 2 ≤ (rdpGo eps fuel ps).length := by
  intro fuel
  induction fuel with
  | zero => intro ps h; exact h
  | succ f ih =>
      intro ps h
      simp only [rdpGo]
      split
      · exact h
      · rename_i hlen
        split
        · rename_i hex
          obtain ⟨h1, h2⟩ := rdp_split_bounds eps ps hlen hex
          have hd : 2 ≤ (ps.drop (rdpIdx ps).1).length := by
            simp only [List.length_drop]; omega
          have := ih (ps.drop (rdpIdx ps).1) hd
          simp only [List.length_append]
          omega
        · simp

/-- RDP preserves the first point. -/
theorem rdpGo_head? (eps : Rat) :
    ∀ (fuel : Nat) (ps : List RPt), 2 ≤ ps.length → (rdpGo eps fuel ps).head? = ps.head? := by
  intro fuel
  induction fuel with
  | zero => intro ps _; rfl
  | succ f ih =>
      intro ps h
      simp only [rdpGo]
      split
      · rfl
      · rename_i hlen
        have hne : ps ≠ [] := by intro e; subst e; simp at hlen
        split
        · rename_i hex
          obtain ⟨h1, h2⟩ := rdp_split_bounds eps ps hlen hex
          have htlen : 2 ≤ (ps.take ((rdpIdx ps).1 + 1)).length := by
            simp only [List.length_take]; omega
          have hr1 : 2 ≤ (rdpGo eps f (ps.take ((rdpIdx ps).1 + 1))).length :=
            rdpGo_length eps f _ htlen
          rw [List.head?_append, head?_dropLast_of_two_le hr1, ih _ htlen, head?_take_succ]
          rw [head?_eq_some_headD hne (0, 0)]
          rfl
        · rw [head?_eq_some_headD hne (0, 0)]
          rfl

/-- RDP preserves the last point. -/
theorem rdpGo_getLast? (eps : Rat) :
    ∀ (fuel : Nat) (ps : List RPt), 2 ≤ ps.length →
      (rdpGo eps fuel ps).getLast? = ps.getLast? := by
  intro fuel
  induction fuel with
  | zero => intro ps _; rfl
  | succ f ih =>
      intro ps h
      simp only [rdpGo]
      split
      · rfl
      · rename_i hlen
        have hne : ps ≠ [] := by intro e; subst e; simp at hlen
        split
        · rename_i hex
          obtain ⟨h1, h2⟩ := rdp_split_bounds eps ps hlen hex
          have hdlen : 2 ≤ (ps.drop (rdpIdx ps).1).length := by
            simp only [List.length_drop]; omega
          have hr2 : 2 ≤ (rdpGo eps f (ps.drop (rdpIdx ps).1)).length :=
            rdpGo_length eps f _ hdlen
          have hr2ne : rdpGo eps f (ps.drop (rdpIdx ps).1) ≠ [] := by
            intro e; rw [e] at hr2; simp at hr2
          rw [List.getLast?_append, ih _ hdlen, getLast?_drop_of_lt _ _ (by omega)]
          rw [getLast?_eq_some_getLastD hne (0, 0)]
          rfl
        · rw [getLast?_eq_some_getLastD hne (0, 0)]
          simp

/-- Cancelling a common final element of two concatenations preserves
sublists. -/
theorem concat_sublist_concat_cancel {l m : List RPt} (x : RPt)
    (h : List.Sublist (l ++ [x]) (m ++ [x])) : List.Sublist l m := by
  have h' := h.reverse
  simp only [List.reverse_append, List.reverse_cons, List.reverse_nil,
    List.nil_append, List.singleton_append] at h'
  exact List.reverse_sublist.mp (List.cons_sublist_cons.mp h')

/-- RDP returns a subsequence of its input. -/
theorem rdpGo_sublist (eps : Rat) :
    ∀ (fuel : Nat) (ps : List RPt), List.Sublist (rdpGo eps fuel ps) ps := by
  intro fuel
  induction fuel with
  | zero => intro ps; exact List.Sublist.refl _
  | succ f ih =>
      intro ps
      simp only [rdpGo]
      split
      · exact List.Sublist.refl _
      · rename_i hlen
        have hne : ps ≠ [] := by intro e; subst e; simp at hlen
        split
        · rename_i hex
          obtain ⟨h1, h2⟩ := rdp_split_bounds eps ps hlen hex
          have hil : (rdpIdx ps).1 < ps.length := by omega
          have htlen : 2 ≤ (ps.take ((rdpIdx ps).1 + 1)).length := by
            simp only [List.length_take]; omega
          have hr1len : 2 ≤ (rdpGo eps f (ps.take ((rdpIdx ps).1 + 1))).length :=
            rdpGo_length eps f _ htlen
          have hr1ne : rdpGo eps f (ps.take ((rdpIdx ps).1 + 1)) ≠ [] := by
            intro e; rw [e] at hr1len; simp at hr1len
          have htake : ps.take ((rdpIdx ps).1) ++ [ps.get ⟨(rdpIdx ps).1, hil⟩] =
              ps.take ((rdpIdx ps).1 + 1) := by
            have := List.take_concat_get ps (rdpIdx ps).1 hil
            rwa [List.concat_eq_append] at this
          have hlast2 : (ps.take ((rdpIdx ps).1 + 1)).getLast? =
              some (ps.get ⟨(rdpIdx ps).1, hil⟩) := by
            rw [← htake]; exact List.getLast?_concat _
          have hlast1 : (rdpGo eps f (ps.take ((rdpIdx ps).1 + 1))).getLast? =
              some (ps.get ⟨(rdpIdx ps).1, hil⟩) := by
            rw [rdpGo_getLast? eps f _ htlen]; exact hlast2
          have hr1eq : (rdpGo eps f (ps.take ((rdpIdx ps).1 + 1))).dropLast ++
              [ps.get ⟨(rdpIdx ps).1, hil⟩] = rdpGo eps f (ps.take ((rdpIdx ps).1 + 1)) := by
            have hgl : (rdpGo eps f (ps.take ((rdpIdx ps).1 + 1))).getLast hr1ne =
                ps.get ⟨(rdpIdx ps).1, hil⟩ := by
              have := List.getLast?_eq_getLast _ hr1ne
              rw [hlast1] at this
              exact (Option.some_inj.mp this).symm
            rw [← hgl]
            exact List.dropLast_concat_getLast hr1ne
          have hsub1 : List.Sublist (rdpGo eps f (ps.take ((rdpIdx ps).1 + 1))).dropLast
              (ps.take ((rdpIdx ps).1)) := by
            apply concat_sublist_concat_cancel (ps.get ⟨(rdpIdx ps).1, hil⟩)
            rw [hr1eq, htake]
            exact ih _
          have hsub : List.Sublist ((rdpGo eps f (ps.take ((rdpIdx ps).1 + 1))).dropLast ++
              rdpGo eps f (ps.drop (rdpIdx ps).1))
              (ps.take ((rdpIdx ps).1) ++ ps.drop ((rdpIdx ps).1)) :=
            List.Sublist.append hsub1 (ih _)
          rwa [List.take_append_drop] at hsub
        · -- the [first, last] branch
          cases ps with
          | nil => exact absurd rfl hne
          | cons a t =>
              cases t with
              | nil => simp at hlen
              | cons b t' =>
                  simp only [List.headD_cons]
                  refine List.cons_sublist_cons.mpr ?_
                  rw [List.singleton_sublist]
                  have : (a :: b :: t').getLastD (0, 0) = (b :: t').getLast (by simp) := by
                    simp [List.getLastD_eq_getLast?, List.getLast?_eq_getLast (b :: t') (by simp)]
                  rw [this]
                  exact List.getLast_mem _

/-- Counterexample to C6: RDP with ε = 0 applied to a 3-point exactly
collinear polyline returns only the 2 endpoints (`dmax > ε` is strict, so a
zero-distance interior point is dropped even at ε = 0). -/
theorem rdp_eps_zero_not_identity :
    ramerDouglasPeucker [((0 : Rat), (0 : Rat)), (1, 0), (2, 0)] 0 ≠
      [((0 : Rat), (0 : Rat)), (1, 0), (2, 0)] := by
  decide

/-- C6 amended: RDP (any tolerance, in particular ε = 0) always returns a
subsequence of its input that retains the first and the last point; at ε = 0
interior points at exactly distance 0 from the chord are still dropped, so it
is not the identity in general (on inputs of ≤ 2 points it returns the input
unchanged, by definition). -/
theorem rdp_endpoint_preserving_sublist (eps : Rat) (ps : List RPt) (h : 2 ≤ ps.length) :
    List.Sublist (ramerDouglasPeucker ps eps) ps ∧
      (ramerDouglasPeucker ps eps).head? = ps.head? ∧
      (ramerDouglasPeucker ps eps).getLast? = ps.getLast? :=
  ⟨rdpGo_sublist eps ps.length ps, rdpGo_head? eps ps.length ps h,
    rdpGo_getLast? eps ps.length ps h⟩

/-! ## C8 — skeleton chains are disjoint, but short chains' pixels are lost -/

/-- A single isolated skeleton pixel in a 3×3 grid. -/
def skelC8 : Nat := buildMask (3*3) fun i => decide (i = 4)

/-- An L-shaped 3-pixel skeleton in a 3×3 grid. -/
def skelC8b : Nat := buildMask (3*3) fun i => decide (i = 0 ∨ i = 3 ∨ i = 4)

/-- Counterexample to C8: on a mask holding one isolated skeleton pixel the
tracer emits no chain at all (the 1-pixel walk is discarded), so that pixel
appears in no chain — "every skeleton pixel appears in exactly one chain"
fails. -/
theorem skeleton_pixel_in_no_chain :
    ¬ (∀ i < 3*3, maskGet skelC8 i = 1 →
        (traceSkeleton skelC8 3 3).countP (fun c => decide ((i % 3, i / 3) ∈ c)) = 1) := by
  decide

/-- A successful `moveDir` lands inside the grid. -/
theorem moveDir_bounds {w h x y d : Nat} {q : GPt} (hq : moveDir w h x y d = some q) :
    q.1 < w ∧ q.2 < h := by
  simp only [moveDir] at hq
  split_ifs at hq with hcond
  · cases hq
    obtain ⟨h1, h2, h3, h4⟩ := hcond
    constructor <;> simp only <;> omega

/-- A successful `skelNext` returns an in-bounds, unvisited skeleton pixel. -/
theorem skelNext_spec {skel w h : Nat} {vis : Finset Nat} {x y : Nat} {p' : GPt}
    (hsn : skelNext skel w h vis x y = some p') :
    p'.1 < w ∧ p'.2 < h ∧ maskGet skel (p'.2*w+p'.1) = 1 ∧ (p'.2*w+p'.1) ∉ vis := by
  unfold skelNext at hsn
  obtain ⟨d, _, hfd⟩ := List.exists_of_findSome?_eq_some hsn
  cases hmv : moveDir w h x y d with
  | none => rw [hmv] at hfd; simp at hfd
  | some q =>
      rw [hmv] at hfd
      obtain ⟨nx, ny⟩ := q
      dsimp only at hfd
      by_cases hc : maskGet skel (ny*w+nx) = 1 ∧ (ny*w+nx) ∉ vis
      · rw [if_pos hc] at hfd
        cases hfd
        have hb := moveDir_bounds hmv
        exact ⟨hb.1, hb.2, hc.1, hc.2⟩
      · rw [if_neg hc] at hfd
        cases hfd

/-- Walk invariants of the skeleton chain walk: every recorded pixel is an
in-bounds skeleton pixel that was unvisited on entry and is visited on exit;
the caller's visited set only grows; and the recorded indices are distinct. -/
theorem skelWalk_spec (skel w h : Nat) :
    ∀ (fuel : Nat) (pos : GPt) (vis : Finset Nat),
      pos.1 < w → pos.2 < h → (pos.2*w+pos.1) ∉ vis →
      maskGet skel (pos.2*w+pos.1) = 1 →
      (∀ q ∈ (skelWalk skel w h fuel pos vis).1,
          q.1 < w ∧ q.2 < h ∧ maskGet skel (q.2*w+q.1) = 1 ∧
          (q.2*w+q.1) ∉ vis ∧ (q.2*w+q.1) ∈ (skelWalk skel w h fuel pos vis).2) ∧
      vis ⊆ (skelWalk skel w h fuel pos vis).2 ∧
      ((skelWalk skel w h fuel pos vis).1.map (fun q => q.2*w+q.1)).Nodup := by
  intro fuel
  induction fuel with
  | zero =>
      intro pos vis hx hy hnv hs
      refine ⟨?_, ?_, ?_⟩
      · intro q hq
        simp only [skelWalk, List.mem_singleton] at hq
        subst hq
        exact ⟨hx, hy, hs, hnv, by simp [skelWalk]⟩
      · intro a ha
        simp only [skelWalk]
        exact Finset.mem_insert_of_mem ha
      · simp [skelWalk]
  | succ f ih =>
      intro pos vis hx hy hnv hs
      simp only [skelWalk]
      cases hnx : skelNext skel w h (insert (pos.2*w+pos.1) vis) pos.1 pos.2 with
      | none =>
          refine ⟨?_, ?_, ?_⟩
          · intro q hq
            simp only [List.mem_singleton] at hq
            subst hq
            exact ⟨hx, hy, hs, hnv, Finset.mem_insert_self _ _⟩
          · intro a ha
            exact Finset.mem_insert_of_mem ha
          · simp
      | some p' =>
          simp only [consFst]
          obtain ⟨hx', hy', hs', hnv'⟩ := skelNext_spec hnx
          have hrec := ih p' (insert (pos.2*w+pos.1) vis) hx' hy' hnv' hs'
          obtain ⟨hA, hD, hE⟩ := hrec
          have hposmem : (pos.2*w+pos.1) ∈ (skelWalk skel w h f p'
              (insert (pos.2*w+pos.1) vis)).2 :=
            hD (Finset.mem_insert_self _ _)
          refine ⟨?_, ?_, ?_⟩
          · intro q hq
            rcases List.mem_cons.mp hq with hq | hq
            · subst hq
              exact ⟨hx, hy, hs, hnv, hposmem⟩
            · obtain ⟨b1, b2, b3, b4, b5⟩ := hA q hq
              exact ⟨b1, b2, b3, fun hmem => b4 (Finset.mem_insert_of_mem hmem), b5⟩
          · intro a ha
            exact hD (Finset.mem_insert_of_mem ha)
          · simp only [List.map_cons, List.nodup_cons]
            constructor
            · intro hmem
              obtain ⟨q, hq, hqe⟩ := List.mem_map.mp hmem
              obtain ⟨_, _, _, b4, _⟩ := hA q hq
              exact b4 (hqe ▸ Finset.mem_insert_self _ _)
            · exact hE

/-- The invariant carried through the row-major scan of `traceSkeleton`. -/
def chainsInv (skel w h : Nat) (st : List (List GPt) × Finset Nat) : Prop :=
  (∀ c ∈ st.1, 2 < c.length ∧ (c.map (fun q : GPt => q.2*w+q.1)).Nodup ∧
      ∀ q ∈ c, q.1 < w ∧ q.2 < h ∧ maskGet skel (q.2*w+q.1) = 1 ∧ (q.2*w+q.1) ∈ st.2) ∧
    List.Pairwise (fun c1 c2 => ∀ p ∈ c1, p ∉ c2) st.1

/-- Generic `foldl` invariant preservation. -/
theorem foldl_invariant {α β : Type} (f : β → α → β) (P : β → Prop) :
    ∀ (l : List α) (init : β), P init → (∀ st a, a ∈ l → P st → P (f st a)) →
      P (l.foldl f init)
  | [], _, h0, _ => h0
  | a :: t, init, h0, hstep =>
      foldl_invariant f P t (f init a) (hstep init a (List.mem_cons_self a t) h0)
        (fun st b hb => hstep st b (List.mem_cons_of_mem a hb))

/-- C8 amended: the chains emitted by the skeleton tracer are pairwise
disjoint lists of more than 2 distinct skeleton pixels — no skeleton pixel
appears in two chains — but pixels whose greedy walk was shorter than 3
pixels appear in no chain at all (they are marked visited and dropped), so
the chains need not cover the skeleton. -/
theorem traceSkeleton_chains_disjoint (skel w h : Nat) :
    (∀ c ∈ traceSkeleton skel w h, 2 < c.length ∧ c.Nodup ∧
        ∀ q ∈ c, q.1 < w ∧ q.2 < h ∧ maskGet skel (q.2*w+q.1) = 1) ∧
      List.Pairwise (fun c1 c2 => ∀ p ∈ c1, p ∉ c2) (traceSkeleton skel w h) := by
  have hinv : chainsInv skel w h ((List.range (w*h)).foldl (fun st i =>
      if maskGet skel i = 1 ∧ i ∉ st.2 then
        skelKeep st (skelWalk skel w h (w*h + 1) (i % w, i / w) st.2)
      else st) ([], ∅)) := by
    apply foldl_invariant
    · exact ⟨fun c hc => absurd hc (List.not_mem_nil c), List.Pairwise.nil⟩
    · intro st i hi hP
      obtain ⟨hchains, hdisj⟩ := hP
      have hiwh : i < w*h := List.mem_range.mp hi
      by_cases hcond : maskGet skel i = 1 ∧ i ∉ st.2
      · rw [if_pos hcond]
        have hw : 0 < w := by
          rcases Nat.eq_zero_or_pos w with hw0 | hw0
          · subst hw0; simp at hiwh
          · exact hw0
        have hxb : i % w < w := Nat.mod_lt _ hw
        have hyb : i / w < h := by
          rcases Nat.eq_zero_or_pos h with hh0 | hh0
          · subst hh0; simp at hiwh
          · exact Nat.div_lt_of_lt_mul (by omega)
        have hidx : (i / w) * w + i % w = i := by
          rw [Nat.mul_comm]
          exact Nat.div_add_mod i w
        have hwalk := skelWalk_spec skel w h (w*h + 1) (i % w, i / w) st.2
          hxb hyb (by simpa only [hidx] using hcond.2) (by simpa only [hidx] using hcond.1)
        obtain ⟨hA, hD, hE⟩ := hwalk
        set r := skelWalk skel w h (w*h + 1) (i % w, i / w) st.2 with hr
        simp only [chainsInv, skelKeep]
        constructor
        · intro c hc
          by_cases hlen : r.1.length > 2
          · rw [if_pos hlen] at hc
            rcases List.mem_append.mp hc with hc | hc
            · obtain ⟨g1, g2, g3⟩ := hchains c hc
              exact ⟨g1, g2, fun q hq =>
                ⟨(g3 q hq).1, (g3 q hq).2.1, (g3 q hq).2.2.1, hD (g3 q hq).2.2.2⟩⟩
            · rw [List.mem_singleton.mp hc]
              exact ⟨hlen, hE, fun q hq =>
                ⟨(hA q hq).1, (hA q hq).2.1, (hA q hq).2.2.1, (hA q hq).2.2.2.2⟩⟩
          · rw [if_neg hlen] at hc
            obtain ⟨g1, g2, g3⟩ := hchains c hc
            exact ⟨g1, g2, fun q hq =>
              ⟨(g3 q hq).1, (g3 q hq).2.1, (g3 q hq).2.2.1, hD (g3 q hq).2.2.2⟩⟩
        · by_cases hlen : r.1.length > 2
          · rw [if_pos hlen]
            rw [List.pairwise_append]
            refine ⟨hdisj, List.pairwise_singleton _ _, ?_⟩
            intro c hc c' hc' p hp hp'
            rw [List.mem_singleton.mp hc'] at hp'
            obtain ⟨_, _, g3⟩ := hchains c hc
            exact (hA p hp').2.2.2.1 ((g3 p hp).2.2.2)
          · rw [if_neg hlen]
            exact hdisj
      · rw [if_neg hcond]
        exact ⟨hchains, hdisj⟩
  obtain ⟨hchains, hdisj⟩ := hinv
  constructor
  · intro c hc
    obtain ⟨g1, g2, g3⟩ := hchains c hc
    exact ⟨g1, List.Nodup.of_map _ g2, fun q hq => ⟨(g3 q hq).1, (g3 q hq).2.1, (g3 q hq).2.2.1⟩⟩
  · exact hdisj

/-- Witness for C8's amended theorem at the concrete L-shaped skeleton. -/
theorem traceSkeleton_chains_disjoint_witness :
    ((traceSkeleton skelC8b 3 3).headD [] ∈ traceSkeleton skelC8b 3 3) ∧
      (2 < ((traceSkeleton skelC8b 3 3).headD []).length ∧
        ((traceSkeleton skelC8b 3 3).headD []).Nodup ∧
        ∀ q ∈ (traceSkeleton skelC8b 3 3).headD [],
          q.1 < 3 ∧ q.2 < 3 ∧ maskGet skelC8b (q.2*3+q.1) = 1) :=
  ⟨by decide, (traceSkeleton_chains_disjoint skelC8b 3 3).1 _ (by decide)⟩

/-! ## C5 — the number of detail paths is monotone in `detailLevel` -/

/-- Counting a `flatMap` over a filtered list: a stricter filter never yields
more elements. -/
theorem flatMap_filter_mono {α β : Type} (l : List α) (p q : α → Bool)
    (f : α → List β) (himp : ∀ a ∈ l, p a = true → q a = true) :
    ((l.filter p).flatMap f).length ≤ ((l.filter q).flatMap f).length := by
  induction l with
  | nil => exact le_refl _
  | cons a t ih =>
      have iht := ih (fun x hx => himp x (List.mem_cons_of_mem a hx))
      by_cases hp : p a = true
      · rw [List.filter_cons_of_pos hp, List.filter_cons_of_pos (himp a (List.mem_cons_self a t) hp)]
        simp only [List.flatMap_cons, List.length_append]
        omega
      · rw [List.filter_cons_of_neg (by simpa using hp)]
        by_cases hq : q a = true
        · rw [List.filter_cons_of_pos hq]
          simp only [List.flatMap_cons, List.length_append]
          omega
        · rw [List.filter_cons_of_neg (by simpa using hq)]
          exact iht

/-- A larger `detailLevel` gives a smaller (or equal) area cutoff. -/
theorem areaCutoff_antitone (bin w h : Nat) {d1 d2 : Nat} (hd : d1 ≤ d2) :
    areaCutoff bin w h d2 ≤ areaCutoff bin w h d1 := by
  unfold areaCutoff
  have hnd : min 100 (max 1 d1) ≤ min 100 (max 1 d2) := by omega
  have hle1 : min 100 (max 1 d1) ≤ 100 := by omega
  have hle2 : min 100 (max 1 d2) ≤ 100 := by omega
  have hb2 : (0 : Rat) ≤ ((100 : Rat) - (min 100 (max 1 d2) : Nat)) / 100 := by
    have : ((min 100 (max 1 d2) : Nat) : Rat) ≤ 100 := by exact_mod_cast hle2
    have h100 : (0 : Rat) < 100 := by norm_num
    apply div_nonneg (by linarith) (by norm_num)
  have hbb : ((100 : Rat) - (min 100 (max 1 d2) : Nat)) / 100 ≤
      ((100 : Rat) - (min 100 (max 1 d1) : Nat)) / 100 := by
    have : ((min 100 (max 1 d1) : Nat) : Rat) ≤ (min 100 (max 1 d2) : Nat) := by
      exact_mod_cast hnd
    apply div_le_div_of_nonneg_right ?_ (by norm_num)
    linarith
  have hpow : (((100 : Rat) - (min 100 (max 1 d2) : Nat)) / 100)^3 ≤
      (((100 : Rat) - (min 100 (max 1 d1) : Nat)) / 100)^3 :=
    pow_le_pow_left₀ hb2 hbb 3
  have hA : (0 : Rat) ≤ (stageBMaxArea bin w h : Nat) := by positivity
  have h2 : (0 : Rat) < 2/100 := by norm_num
  calc (stageBMaxArea bin w h : Rat) *
        (((100 : Rat) - (min 100 (max 1 d2) : Nat)) / 100)^3 * (2/100)
      ≤ (stageBMaxArea bin w h : Rat) *
        (((100 : Rat) - (min 100 (max 1 d1) : Nat)) / 100)^3 * (2/100) := by
        apply mul_le_mul_of_nonneg_right ?_ (le_of_lt h2)
        exact mul_le_mul_of_nonneg_left hpow hA

/-- C5: for a fixed binarized input and fixed `centerlineSensitivity`, the
number of detail paths produced by Stage B is monotone non-decreasing in
`detailLevel`: raising `detailLevel` lowers the cubic `areaCutoff`, so the
surviving-region list only grows while each survivor's path contribution is
unchanged (`optimizePath` ignores the parameter record). -/
theorem innerPaths_monotone_detail (bin w h sens : Nat) (d1 d2 : Nat) (hd : d1 ≤ d2) :
    (innerPaths bin w h ⟨d1, sens⟩).length ≤ (innerPaths bin w h ⟨d2, sens⟩).length := by
  rcases Nat.eq_zero_or_pos d1 with h0 | hpos
  · subst h0
    simp [innerPaths]
  · have h2pos : 0 < d2 := lt_of_lt_of_le hpos hd
    unfold innerPaths
    rw [if_pos (by exact hpos), if_pos (by exact h2pos)]
    have hcut := areaCutoff_antitone bin w h hd
    have hreg : regionPaths bin w h ⟨d2, sens⟩ (fillThOf sens) =
        regionPaths bin w h ⟨d1, sens⟩ (fillThOf sens) := rfl
    rw [hreg]
    apply flatMap_filter_mono
    intro r _ hp
    rw [decide_eq_true_iff] at hp ⊢
    exact le_trans hcut hp

/-- Witness for C5 at a concrete mask (4×4 block) and levels 40 ≤ 90. -/
theorem innerPaths_monotone_detail_witness :
    40 ≤ 90 ∧ (innerPaths binC4b 6 6 ⟨40, 0⟩).length ≤ (innerPaths binC4b 6 6 ⟨90, 0⟩).length :=
  ⟨by norm_num, innerPaths_monotone_detail binC4b 6 6 0 40 90 (by norm_num)⟩

/-! ## C1 — closure correctness and the silhouette's forced `isClosed` -/

/-- 8-neighbourhood relation (Chebyshev distance ≤ 1, the pixel and its Moore
neighbours) on grid points. -/
def adj8 (p q : GPt) : Prop :=
  p.1 ≤ q.1 + 1 ∧ q.1 ≤ p.1 + 1 ∧ p.2 ≤ q.2 + 1 ∧ q.2 ≤ p.2 + 1

instance : DecidableRel adj8 := fun p q => by
  unfold adj8; infer_instance

/-- `headD` reads index 0. -/
theorem headD_eq_getD {α : Type} (l : List α) (d : α) : l.headD d = l.getD 0 d := by
  cases l <;> rfl

/-- `getLastD` reads index `length − 1`. -/
theorem getLastD_eq_getD {α : Type} (l : List α) (d : α) :
    l.getLastD d = l.getD (l.length - 1) d := by
  rw [List.getLastD_eq_getLast?, List.getLast?_eq_getElem?, List.getD_eq_getElem?_getD]

/-- `getD` in range is `get`. -/
theorem getD_of_lt {α : Type} (l : List α) (d : α) (i : Nat) (h : i < l.length) :
    l.getD i d = l.get ⟨i, h⟩ := by
  rw [List.getD_eq_getElem?_getD, List.getElem?_eq_getElem h]
  rfl

/-- Casting to rational points commutes with `getD` at the zero default. -/
theorem getD_map_cast (path : List GPt) (i : Nat) :
    (path.map (fun q => ((q.1 : Rat), (q.2 : Rat)))).getD i (0, 0) =
      (((path.getD i (0, 0)).1 : Rat), ((path.getD i (0, 0)).2 : Rat)) := by
  rw [List.getD_eq_getElem?_getD, List.getD_eq_getElem?_getD, List.getElem?_map]
  cases path[i]? <;> simp

/-- The first smoothed point is the mean of the first two input points. -/
theorem smoothAt_zero (p : List RPt) (h : 2 ≤ p.length) :
    smoothAt p 0 = (((p.getD 0 (0, 0)).1 + (p.getD 1 (0, 0)).1) / 2,
                    ((p.getD 0 (0, 0)).2 + (p.getD 1 (0, 0)).2) / 2) := by
  have h1 : 0 + 1 < p.length := by omega
  simp only [smoothAt, if_pos rfl, if_pos h1, List.nil_append, List.cons_append,
    List.map_cons, List.map_nil, List.sum_cons, List.sum_nil, List.length_cons,
    List.length_singleton]
  norm_num

/-- The last smoothed point is the mean of the last two input points. -/
theorem smoothAt_last (p : List RPt) (h : 2 ≤ p.length) :
    smoothAt p (p.length - 1) =
      (((p.getD (p.length - 2) (0, 0)).1 + (p.getD (p.length - 1) (0, 0)).1) / 2,
       ((p.getD (p.length - 2) (0, 0)).2 + (p.getD (p.length - 1) (0, 0)).2) / 2) := by
  have h0 : ¬ (p.length - 1 = 0) := by omega
  have h1 : ¬ (p.length - 1 + 1 < p.length) := by omega
  have h2 : p.length - 1 - 1 = p.length - 2 := by omega
  simp only [smoothAt, if_neg h0, if_neg h1, h2, List.cons_append, List.nil_append,
    List.append_nil, List.map_cons, List.map_nil, List.sum_cons, List.sum_nil,
    List.length_cons, List.length_singleton]
  norm_num

/-- Head of the smoothed list. -/
theorem smoothPts_headD (p : List RPt) (h : 1 ≤ p.length) :
    (smoothPts p).headD (0, 0) = smoothAt p 0 := by
  rw [headD_eq_getD]
  unfold smoothPts
  rw [List.getD_eq_getElem?_getD, List.getElem?_map, List.getElem?_range (by omega)]
  rfl

/-- Last point of the smoothed list. -/
theorem smoothPts_getLastD (p : List RPt) (h : 1 ≤ p.length) :
    (smoothPts p).getLastD (0, 0) = smoothAt p (p.length - 1) := by
  rw [getLastD_eq_getD]
  unfold smoothPts
  simp only [List.length_map, List.length_range]
  rw [List.getD_eq_getElem?_getD, List.getElem?_map, List.getElem?_range (by omega)]
  rfl

/-- Squares of two rationals of absolute value ≤ 1 sum below 400. -/
theorem close_unit_sq {u v : Rat} (hu : |u| ≤ 1) (hv : |v| ≤ 1) : u^2 + v^2 < 400 := by
  rw [abs_le] at hu hv
  nlinarith [hu.1, hu.2, hv.1, hv.2]

/-- Halves of two rationals of absolute value ≤ 4 have squares summing below
400. -/
theorem close_quarter_sq {u v : Rat} (hu : |u| ≤ 4) (hv : |v| ≤ 4) :
    (u/2)^2 + (v/2)^2 < 400 := by
  rw [abs_le] at hu hv
  nlinarith [hu.1, hu.2, hv.1, hv.2]

/-- Head of `dropLast l ++ [x]` is the head of `l` when `l` has ≥ 2 points. -/
theorem headD_dropLast_concat {l : List RPt} (h : 2 ≤ l.length) (x d : RPt) :
    (l.dropLast ++ [x]).headD d = l.headD d := by
  cases l with
  | nil => simp at h
  | cons a t =>
      cases t with
      | nil => simp at h
      | cons b t' => simp

/-- If consecutive points of the path are 8-neighbours and its endpoints are
8-neighbours — as holds for every Moore-contour walk that terminated by
returning to its start — then the optimizer's working endpoints are closer
than the OUTLINE closure threshold of 20 pixels. -/
theorem adjacent_endpoints_close (path : List GPt) (_h2 : 2 ≤ path.length)
    (hchain : List.Chain' adj8 path)
    (hadj : adj8 (path.getD 0 (0, 0)) (path.getD (path.length - 1) (0, 0))) :
    distSq ((optPoints path).headD (0, 0)) ((optPoints path).getLastD (0, 0)) < 400 := by
  have hmaplen : (path.map (fun q : GPt => ((q.1 : Rat), (q.2 : Rat)))).length = path.length := by
    simp
  obtain ⟨ha1, ha2, ha3, ha4⟩ := hadj
  by_cases h3 : 3 < path.length
  · rw [optPoints, if_pos (by rw [hmaplen]; exact h3)]
    have hlen' : 2 ≤ (path.map (fun q : GPt => ((q.1 : Rat), (q.2 : Rat)))).length := by
      rw [hmaplen]; omega
    rw [smoothPts_headD _ (by omega), smoothPts_getLastD _ (by omega),
      smoothAt_zero _ hlen', smoothAt_last _ hlen', hmaplen,
      getD_map_cast, getD_map_cast, getD_map_cast, getD_map_cast]
    -- adjacency of the first two and the last two points, from the chain
    have hAB := (List.chain'_iff_get.mp hchain) 0 (by omega)
    rw [← getD_of_lt path (0, 0) 0 (by omega)] at hAB
    have h01 : (0 : Nat) + 1 = 1 := rfl
    rw [show path.get ⟨0 + 1, by omega⟩ = path.getD 1 (0, 0) from
      (getD_of_lt path (0, 0) 1 (by omega)).symm] at hAB
    have hCD := (List.chain'_iff_get.mp hchain) (path.length - 2) (by omega)
    rw [← getD_of_lt path (0, 0) (path.length - 2) (by omega)] at hCD
    rw [show path.get ⟨path.length - 2 + 1, by omega⟩ = path.getD (path.length - 1) (0, 0) from by
      rw [← getD_of_lt path (0, 0) (path.length - 2 + 1) (by omega)]
      congr 1
      omega] at hCD
    obtain ⟨hb1, hb2, hb3, hb4⟩ := hAB
    obtain ⟨hc1, hc2, hc3, hc4⟩ := hCD
    set A := path.getD 0 (0, 0)
    set B := path.getD 1 (0, 0)
    set C := path.getD (path.length - 2) (0, 0)
    set D := path.getD (path.length - 1) (0, 0)
    have hkey : distSq (((A.1 : Rat) + B.1) / 2, ((A.2 : Rat) + B.2) / 2)
        (((C.1 : Rat) + D.1) / 2, ((C.2 : Rat) + D.2) / 2) =
        ((((A.1 : Rat) + B.1) - ((C.1 : Rat) + D.1)) / 2)^2 +
          ((((A.2 : Rat) + B.2) - ((C.2 : Rat) + D.2)) / 2)^2 := by
      simp only [distSq]
      ring
    rw [hkey]
    apply close_quarter_sq
    · rw [abs_le]
      have q1 : (A.1 : Rat) ≤ D.1 + 1 := by exact_mod_cast ha1
      have q2 : (D.1 : Rat) ≤ A.1 + 1 := by exact_mod_cast ha2
      have q3 : (A.1 : Rat) ≤ B.1 + 1 := by exact_mod_cast hb1
      have q4 : (B.1 : Rat) ≤ A.1 + 1 := by exact_mod_cast hb2
      have q5 : (C.1 : Rat) ≤ D.1 + 1 := by exact_mod_cast hc1
      have q6 : (D.1 : Rat) ≤ C.1 + 1 := by exact_mod_cast hc2
      constructor <;> linarith
    · rw [abs_le]
      have q1 : (A.2 : Rat) ≤ D.2 + 1 := by exact_mod_cast ha3
      have q2 : (D.2 : Rat) ≤ A.2 + 1 := by exact_mod_cast ha4
      have q3 : (A.2 : Rat) ≤ B.2 + 1 := by exact_mod_cast hb3
      have q4 : (B.2 : Rat) ≤ A.2 + 1 := by exact_mod_cast hb4
      have q5 : (C.2 : Rat) ≤ D.2 + 1 := by exact_mod_cast hc3
      have q6 : (D.2 : Rat) ≤ C.2 + 1 := by exact_mod_cast hc4
      constructor <;> linarith
  · rw [optPoints, if_neg (by rw [hmaplen]; exact h3)]
    rw [headD_eq_getD, getLastD_eq_getD, hmaplen, getD_map_cast, getD_map_cast]
    set A := path.getD 0 (0, 0)
    set D := path.getD (path.length - 1) (0, 0)
    have hkey : distSq ((A.1 : Rat), (A.2 : Rat)) ((D.1 : Rat), (D.2 : Rat)) =
        ((A.1 : Rat) - D.1)^2 + ((A.2 : Rat) - D.2)^2 := by
      simp only [distSq]
    rw [hkey]
    apply close_unit_sq
    · rw [abs_le]
      have q1 : (A.1 : Rat) ≤ D.1 + 1 := by exact_mod_cast ha1
      have q2 : (D.1 : Rat) ≤ A.1 + 1 := by exact_mod_cast ha2
      constructor <;> linarith
    · rw [abs_le]
      have q1 : (A.2 : Rat) ≤ D.2 + 1 := by exact_mod_cast ha3
      have q2 : (D.2 : Rat) ≤ A.2 + 1 := by exact_mod_cast ha4
      constructor <;> linarith

/-- The Stage A forcing applied to a concrete optimizer output whose contour
endpoints are more than 20 pixels apart. -/
def c1forced : OptimizedPath :=
  forceClosed ((optimizePath [(0, 0), (30, 0), (60, 40)] ⟨50, 50⟩ PathType.OUTLINE).getD
    ⟨[], false, 0, PathType.OUTLINE⟩)

/-- Counterexample to C1: Stage A's forcing (`opt.isClosed = true`) does not
re-snap the endpoint, so a path whose optimizer output is open (endpoints
further than the 20-pixel OUTLINE threshold) becomes marked closed while
`|start − end| > 0`. -/
theorem forced_closed_path_with_gap :
    c1forced.isClosed = true ∧
      0 < distSq (c1forced.points.headD (0, 0)) (c1forced.points.getLastD (0, 0)) := by
  decide

/-- C1 amended.  (a) Closure correctness holds for every path as returned by
`optimizePath`: a path it marks closed has its last point equal to its first
(distance exactly 0), and a path it leaves open has endpoints at distance
> 0 (in fact ≥ the closure threshold of its kind).  (b) The silhouette's
forced `isClosed := true` additionally yields `|start − end| = 0` whenever
the traced contour's consecutive points are 8-neighbours and its endpoints
are 8-neighbours — which is the case exactly when the Moore walk terminated
by returning to its start rather than through the 20000-step safety bound.
A contour truncated by the step bound can end far from its start, and the
forced flag then violates closure correctness (see the counterexample). -/
theorem closure_correct_and_forced_silhouette :
    (∀ (path : List GPt) (params : ProcessingParams) (ty : PathType) (o : OptimizedPath),
        optimizePath path params ty = some o →
          (o.isClosed = true →
            o.points.headD (0, 0) = o.points.getLastD (0, 0)) ∧
          (o.isClosed = false →
            0 < distSq (o.points.headD (0, 0)) (o.points.getLastD (0, 0)))) ∧
    (∀ (path : List GPt) (params : ProcessingParams) (o : OptimizedPath),
        2 ≤ path.length → List.Chain' adj8 path →
        adj8 (path.getD 0 (0, 0)) (path.getD (path.length - 1) (0, 0)) →
        optimizePath path params PathType.OUTLINE = some o →
          (forceClosed o).isClosed = true ∧
            (forceClosed o).points.headD (0, 0) = (forceClosed o).points.getLastD (0, 0)) := by
  constructor
  · intro path params ty o h
    by_cases hlen : path.length < 2
    · simp [optimizePath, hlen] at h
    · simp only [optimizePath, if_neg hlen] at h
      have hplen : 2 ≤ (optPoints path).length := by rw [optPoints_length]; omega
      split_ifs at h with hc
      · cases h
        constructor
        · intro _
          simp only
          rw [headD_dropLast_concat hplen, List.getLastD_concat]
        · intro habs
          simp at habs
      · cases h
        constructor
        · intro habs
          simp at habs
        · intro _
          simp only
          unfold optClosed at hc
          rw [not_or] at hc
          obtain ⟨hc1, hc2⟩ := hc
          cases ty with
          | OUTLINE =>
              have : ¬ distSq ((optPoints path).headD (0, 0))
                  ((optPoints path).getLastD (0, 0)) < 400 := fun hd => hc1 ⟨rfl, hd⟩
              linarith [not_lt.mp this]
          | CENTERLINE =>
              have : ¬ distSq ((optPoints path).headD (0, 0))
                  ((optPoints path).getLastD (0, 0)) < 25 := fun hd => hc2 ⟨rfl, hd⟩
              linarith [not_lt.mp this]
  · intro path params o h2 hchain hadj h
    have hlen : ¬ path.length < 2 := by omega
    have hclose := adjacent_endpoints_close path h2 hchain hadj
    have hcond : optClosed path PathType.OUTLINE := Or.inl ⟨rfl, hclose⟩
    simp only [optimizePath, if_neg hlen, if_pos hcond] at h
    cases h
    have hplen : 2 ≤ (optPoints path).length := by rw [optPoints_length]; omega
    refine ⟨rfl, ?_⟩
    simp only [forceClosed]
    rw [headD_dropLast_concat hplen, List.getLastD_concat]

/-- Witness for C1's amended theorem: part (a) at a concrete open CENTERLINE
path, part (b) at a concrete 8-connected closed square contour. -/
theorem closure_correct_and_forced_silhouette_witness :
    (optimizePath [(0, 0), (0, 30)] ⟨50, 50⟩ PathType.CENTERLINE =
        some ⟨[(0, 0), (0, 30)], false, 0, PathType.CENTERLINE⟩ ∧
      ((⟨[(0, 0), (0, 30)], false, 0, PathType.CENTERLINE⟩ : OptimizedPath).isClosed = false →
        0 < distSq ((⟨[(0, 0), (0, 30)], false, 0, PathType.CENTERLINE⟩ :
            OptimizedPath).points.headD (0, 0))
          ((⟨[(0, 0), (0, 30)], false, 0, PathType.CENTERLINE⟩ :
            OptimizedPath).points.getLastD (0, 0)))) ∧
    (2 ≤ ([(0, 0), (1, 0), (1, 1), (0, 1)] : List GPt).length ∧
      List.Chain' adj8 [(0, 0), (1, 0), (1, 1), (0, 1)] ∧
      adj8 (([(0, 0), (1, 0), (1, 1), (0, 1)] : List GPt).getD 0 (0, 0))
        (([(0, 0), (1, 0), (1, 1), (0, 1)] : List GPt).getD
          (([(0, 0), (1, 0), (1, 1), (0, 1)] : List GPt).length - 1) (0, 0)) ∧
      ∀ (o : OptimizedPath),
        optimizePath [(0, 0), (1, 0), (1, 1), (0, 1)] ⟨50, 50⟩ PathType.OUTLINE = some o →
          (forceClosed o).isClosed = true ∧
            (forceClosed o).points.headD (0, 0) = (forceClosed o).points.getLastD (0, 0)) :=
  ⟨⟨by decide,
    (closure_correct_and_forced_silhouette.1 [(0, 0), (0, 30)] ⟨50, 50⟩
      PathType.CENTERLINE _ (by decide)).2⟩,
   by decide,
   by norm_num [List.chain'_cons, adj8],
   by decide,
   fun o ho => closure_correct_and_forced_silhouette.2 [(0, 0), (1, 0), (1, 1), (0, 1)]
     ⟨50, 50⟩ o (by decide) (by norm_num [List.chain'_cons, adj8]) (by decide) ho⟩

/-- Witness for C6's amended theorem on a concrete zig-zag polyline. -/
theorem rdp_endpoint_preserving_sublist_witness :
    2 ≤ ([((0 : Rat), (0 : Rat)), (1, 5), (2, 0)] : List RPt).length ∧
      (List.Sublist (ramerDouglasPeucker [((0 : Rat), (0 : Rat)), (1, 5), (2, 0)] (8/10))
          [((0 : Rat), (0 : Rat)), (1, 5), (2, 0)] ∧
        (ramerDouglasPeucker [((0 : Rat), (0 : Rat)), (1, 5), (2, 0)] (8/10)).head? =
          ([((0 : Rat), (0 : Rat)), (1, 5), (2, 0)] : List RPt).head? ∧
        (ramerDouglasPeucker [((0 : Rat), (0 : Rat)), (1, 5), (2, 0)] (8/10)).getLast? =
          ([((0 : Rat), (0 : Rat)), (1, 5), (2, 0)] : List RPt).getLast?) :=
  ⟨by norm_num, rdp_endpoint_preserving_sublist (8/10) _ (by norm_num)⟩

/-! ## C9 — all-background inputs yield an empty, well-formed result

The work is in showing that the background flood fill visits the whole grid
when the (dilated) binary mask is all-zero, so that `invertMask` of the
background mask is the zero mask and both pipeline stages emit nothing. -/

/-- Unfolding of `buildMask` one cell at a time. -/
theorem buildMask_succ (n : Nat) (f : Nat → Bool) :
    buildMask (n+1) f = if f n then buildMask n f ||| (1 <<< n) else buildMask n f := by
  unfold buildMask
  rw [List.range_succ, List.foldl_append]
  rfl

/-- Bit `j` of `buildMask n f` is set iff `j` is one of the `n` cells and
`f j` holds. -/
theorem testBit_buildMask (f : Nat → Bool) :
    ∀ (n j : Nat), ((buildMask n f).testBit j = true ↔ (j < n ∧ f j = true)) := by
  intro n
  induction n with
  | zero =>
      intro j
      simp [buildMask]
  | succ n ih =>
      intro j
      rw [buildMask_succ]
      by_cases hfn : f n = true
      · rw [if_pos hfn, Nat.testBit_or, Nat.shiftLeft_eq, one_mul, Nat.testBit_two_pow,
          Bool.or_eq_true, ih]
        constructor
        · rintro (⟨hj, hfj⟩ | hnj)
          · exact ⟨by omega, hfj⟩
          · have hnj' : n = j := of_decide_eq_true hnj
            subst hnj'
            exact ⟨by omega, hfn⟩
        · rintro ⟨hj, hfj⟩
          by_cases hjn : j = n
          · subst hjn
            right
            exact decide_eq_true rfl
          · left
            exact ⟨by omega, hfj⟩
      · rw [if_neg hfn, ih]
        constructor
        · rintro ⟨hj, hfj⟩
          exact ⟨by omega, hfj⟩
        · rintro ⟨hj, hfj⟩
          by_cases hjn : j = n
          · subst hjn
            exact absurd hfj hfn
          · exact ⟨by omega, hfj⟩

/-- A buffer whose defining predicate is false on all its cells is the zero
mask. -/
theorem buildMask_eq_zero {n : Nat} {f : Nat → Bool}
    (h : ∀ i, i < n → f i = false) : buildMask n f = 0 := by
  refine Nat.eq_of_testBit_eq fun j => ?_
  rw [Nat.zero_testBit]
  by_cases hj : (buildMask n f).testBit j = true
  · obtain ⟨h1, h2⟩ := (testBit_buildMask f n j).mp hj
    rw [h j h1] at h2
    exact absurd h2 (by simp)
  · simpa using hj

/-- Every cell of the zero mask reads 0. -/
theorem maskGet_zero (i : Nat) : maskGet 0 i = 0 := by
  simp [maskGet, Nat.zero_testBit]

/-- Dilating the zero mask yields the zero mask. -/
theorem dilateOnce_zero (w h : Nat) : dilateOnce 0 w h = 0 := by
  refine buildMask_eq_zero fun i _ => ?_
  simp [maskGet_zero]

/-- Iterated dilation of the zero mask yields the zero mask. -/
theorem dilateMask_zero (w h : Nat) : ∀ r, dilateMask 0 w h r = 0
  | 0 => rfl
  | r+1 => by
      show dilateOnce (dilateMask 0 w h r) w h = 0
      rw [dilateMask_zero w h r, dilateOnce_zero]

/-- Row-major index of an in-bounds cell is inside the buffer. -/
theorem cellIdx_lt {w h nx ny : Nat} (hx : nx < w) (hy : ny < h) : ny*w+nx < w*h :=
  calc ny*w+nx < ny*w + w := by omega
  _ = (ny+1)*w := by ring
  _ ≤ h*w := Nat.mul_le_mul_right w hy
  _ = w*h := Nat.mul_comm h w

/-- In-bounds coordinates are recoverable from the row-major index. -/
theorem cellIdx_inj {w a b c d : Nat} (ha : a < w) (hc : c < w)
    (h : b*w+a = d*w+c) : a = c ∧ b = d := by
  have hw : 0 < w := by omega
  have h1 : (b*w+a) % w = a := by
    rw [Nat.add_comm, Nat.add_mul_mod_self_right, Nat.mod_eq_of_lt ha]
  have h2 : (d*w+c) % w = c := by
    rw [Nat.add_comm, Nat.add_mul_mod_self_right, Nat.mod_eq_of_lt hc]
  have hac : a = c := by rw [← h1, h, h2]
  subst hac
  have hbd : b * w = d * w := by omega
  exact ⟨rfl, Nat.eq_of_mul_eq_mul_right hw hbd⟩

/-- Reading a buffer cell as 0 is exactly its bit being clear. -/
theorem maskGet_eq_zero_iff {m i : Nat} : maskGet m i = 0 ↔ m.testBit i = false := by
  unfold maskGet
  cases hb : m.testBit i <;> simp [hb]

/-- Setting one bit, bitwise. -/
theorem testBit_setBit (m i j : Nat) :
    (m ||| (1 <<< i)).testBit j = (m.testBit j || decide (i = j)) := by
  rw [Nat.testBit_or, Nat.shiftLeft_eq, one_mul, Nat.testBit_two_pow]

/-- The freshly set bit reads 1. -/
theorem testBit_setBit_self {m i : Nat} : (m ||| (1 <<< i)).testBit i = true := by
  rw [testBit_setBit]
  simp

/-- Set bits stay set under further writes. -/
theorem testBit_or_mono {m x j : Nat} (h : m.testBit j = true) :
    (m ||| x).testBit j = true := by
  rw [Nat.testBit_or, h, Bool.true_or]

/-- The number of marked cells of an `n`-cell buffer — the flood fill's
termination measure. -/
def maskCard (n m : Nat) : Nat := ((Finset.range n).filter fun i => m.testBit i).card

/-- At most `n` of the `n` cells are marked. -/
theorem maskCard_le (n m : Nat) : maskCard n m ≤ n :=
  le_trans (Finset.card_filter_le _ _) (le_of_eq (Finset.card_range n))

/-- Marking an unmarked in-range cell increments the count. -/
theorem maskCard_setBit {n m i : Nat} (hi : i < n) (hb : m.testBit i = false) :
    maskCard n (m ||| (1 <<< i)) = maskCard n m + 1 := by
  unfold maskCard
  have hset : ((Finset.range n).filter fun j => (m ||| (1 <<< i)).testBit j) =
      insert i ((Finset.range n).filter fun j => m.testBit j) := by
    ext j
    simp only [Finset.mem_filter, Finset.mem_insert, Finset.mem_range, testBit_setBit]
    constructor
    · rintro ⟨hj, hor⟩
      rw [Bool.or_eq_true] at hor
      rcases hor with h1 | h1
      · exact Or.inr ⟨hj, h1⟩
      · exact Or.inl (of_decide_eq_true h1).symm
    · rintro (h1 | ⟨hj, h1⟩)
      · subst h1
        exact ⟨hi, by simp⟩
      · exact ⟨hj, by rw [h1]; simp⟩
  rw [hset, Finset.card_insert_of_not_mem]
  simp only [Finset.mem_filter, Finset.mem_range]
  rintro ⟨-, h1⟩
  rw [hb] at h1
  exact absurd h1 (by simp)

/-- Full case analysis of one conditional flood push: either nothing happens,
or the (in-bounds, background, unvisited) neighbour is pushed and marked; and
whenever the guard's conditions all hold, the neighbour is marked afterwards. -/
theorem floodPush_spec (bin w h : Nat) (st : List GPt × Nat)
    (nx ny : Nat) (ok : Bool) :
    (floodPush bin w h st nx ny ok = st ∨
      (nx < w ∧ ny < h ∧ maskGet bin (ny*w+nx) = 0 ∧ st.2.testBit (ny*w+nx) = false ∧
        floodPush bin w h st nx ny ok =
          ((nx, ny) :: st.1, st.2 ||| (1 <<< (ny*w+nx))))) ∧
    (ok = true → nx < w → ny < h → maskGet bin (ny*w+nx) = 0 →
      (floodPush bin w h st nx ny ok).2.testBit (ny*w+nx) = true) := by
  unfold floodPush
  split_ifs with hc
  · obtain ⟨h1, h2, h3, h4, h5⟩ := hc
    exact ⟨Or.inr ⟨h2, h3, h5, maskGet_eq_zero_iff.mp h4, rfl⟩,
      fun _ _ _ _ => testBit_setBit_self⟩
  · refine ⟨Or.inl rfl, fun hok hnw hnh hbin0 => ?_⟩
    by_cases hv : maskGet st.2 (ny*w+nx) = 0
    · exact absurd ⟨hok, hnw, hnh, hv, hbin0⟩ hc
    · rcases Bool.eq_false_or_eq_true (st.2.testBit (ny*w+nx)) with ht | hf
      · exact ht
      · exact absurd (maskGet_eq_zero_iff.mpr hf) hv

/-- Marked cells stay marked across a push. -/
theorem floodPush_vis_mono (bin w h : Nat) (st : List GPt × Nat)
    (nx ny : Nat) (ok : Bool) {j : Nat} (hj : st.2.testBit j = true) :
    (floodPush bin w h st nx ny ok).2.testBit j = true := by
  rcases (floodPush_spec bin w h st nx ny ok).1 with he | ⟨_, _, _, _, he⟩
  · rw [he]
    exact hj
  · rw [he]
    exact testBit_or_mono hj

/-- Stack membership is preserved across a push. -/
theorem floodPush_stack_mono (bin w h : Nat) (st : List GPt × Nat)
    (nx ny : Nat) (ok : Bool) :
    ∀ p ∈ st.1, p ∈ (floodPush bin w h st nx ny ok).1 := by
  intro p hp
  rcases (floodPush_spec bin w h st nx ny ok).1 with he | ⟨_, _, _, _, he⟩
  · rw [he]
    exact hp
  · rw [he]
    exact List.mem_cons_of_mem _ hp

/-- Any cell marked by a push was already marked, or is the pushed neighbour,
which is then on the new stack. -/
theorem floodPush_new (bin w h : Nat) (st : List GPt × Nat)
    (nx ny : Nat) (ok : Bool) :
    ∀ c, (floodPush bin w h st nx ny ok).2.testBit c = true →
      st.2.testBit c = true ∨ (c = ny*w+nx ∧ nx < w ∧ ny < h ∧
        (nx, ny) ∈ (floodPush bin w h st nx ny ok).1) := by
  intro c hc
  rcases (floodPush_spec bin w h st nx ny ok).1 with he | ⟨hnw, hnh, _, _, he⟩
  · rw [he] at hc
    exact Or.inl hc
  · rw [he] at hc ⊢
    rw [testBit_setBit, Bool.or_eq_true] at hc
    rcases hc with h1 | h1
    · exact Or.inl h1
    · exact Or.inr ⟨(of_decide_eq_true h1).symm, hnw, hnh, List.mem_cons_self _ _⟩

/-- Pushes keep the stack invariant: every stacked cell is in bounds and
already marked. -/
theorem floodPush_stackinv (bin w h : Nat) (st : List GPt × Nat)
    (nx ny : Nat) (ok : Bool)
    (hst : ∀ p ∈ st.1, p.1 < w ∧ p.2 < h ∧ st.2.testBit (p.2*w+p.1) = true) :
    ∀ p ∈ (floodPush bin w h st nx ny ok).1,
      p.1 < w ∧ p.2 < h ∧ (floodPush bin w h st nx ny ok).2.testBit (p.2*w+p.1) = true := by
  intro p hp
  rcases (floodPush_spec bin w h st nx ny ok).1 with he | ⟨hnw, hnh, _, _, he⟩
  · rw [he] at hp ⊢
    exact hst p hp
  · rw [he] at hp ⊢
    rcases List.mem_cons.mp hp with h1 | h1
    · subst h1
      exact ⟨hnw, hnh, testBit_setBit_self⟩
    · obtain ⟨ha, hb, hm⟩ := hst p h1
      exact ⟨ha, hb, testBit_or_mono hm⟩

/-- Pushes do not increase the termination measure
`stack length + unmarked cells`. -/
theorem floodPush_measure (bin w h : Nat) (st : List GPt × Nat)
    (nx ny : Nat) (ok : Bool) :
    (floodPush bin w h st nx ny ok).1.length +
        (w*h - maskCard (w*h) (floodPush bin w h st nx ny ok).2) ≤
      st.1.length + (w*h - maskCard (w*h) st.2) := by
  rcases (floodPush_spec bin w h st nx ny ok).1 with he | ⟨hnw, hnh, _, hnb, he⟩
  · rw [he]
  · rw [he]
    have hidx : ny*w+nx < w*h := cellIdx_lt hnw hnh
    simp only [List.length_cons]
    rw [maskCard_setBit hidx hnb]
    have h2 : maskCard (w*h) st.2 + 1 ≤ w*h := by
      rw [← maskCard_setBit hidx hnb]
      exact maskCard_le _ _
    omega

/-- The closure property the flood fill establishes at one cell: each of the
four in-bounds background neighbours of `(x,y)` is marked. -/
def closure4 (bin w h : Nat) (vis : Nat) (x y : Nat) : Prop :=
  (x+1 < w → maskGet bin (y*w+(x+1)) = 0 → vis.testBit (y*w+(x+1)) = true) ∧
  (0 < x → maskGet bin (y*w+(x-1)) = 0 → vis.testBit (y*w+(x-1)) = true) ∧
  (y+1 < h → maskGet bin ((y+1)*w+x) = 0 → vis.testBit ((y+1)*w+x) = true) ∧
  (0 < y → maskGet bin ((y-1)*w+x) = 0 → vis.testBit ((y-1)*w+x) = true)

/-- A marked bitmask closed under taking in-bounds background neighbours. -/
def floodClosed (bin w h : Nat) (vis : Nat) : Prop :=
  ∀ x y, x < w → y < h → vis.testBit (y*w+x) = true → closure4 bin w h vis x y

/-- `closure4` is monotone in the marked bitmask. -/
theorem closure4_mono {bin w h : Nat} {vis vis' : Nat} {x y : Nat}
    (hsub : ∀ j, vis.testBit j = true → vis'.testBit j = true)
    (hc : closure4 bin w h vis x y) : closure4 bin w h vis' x y := by
  obtain ⟨h1, h2, h3, h4⟩ := hc
  exact ⟨fun u v => hsub _ (h1 u v), fun u v => hsub _ (h2 u v),
    fun u v => hsub _ (h3 u v), fun u v => hsub _ (h4 u v)⟩

/-- State after the first push (`[x+1, y]`) of one `floodLoop` iteration. -/
def floodS1 (bin w h x y : Nat) (rest : List GPt) (vis : Nat) : List GPt × Nat :=
  floodPush bin w h (rest, vis) (x+1) y true

/-- State after the second push (`[x-1, y]`). -/
def floodS2 (bin w h x y : Nat) (rest : List GPt) (vis : Nat) : List GPt × Nat :=
  floodPush bin w h (floodS1 bin w h x y rest vis) (x-1) y (decide (0 < x))

/-- State after the third push (`[x, y+1]`). -/
def floodS3 (bin w h x y : Nat) (rest : List GPt) (vis : Nat) : List GPt × Nat :=
  floodPush bin w h (floodS2 bin w h x y rest vis) x (y+1) true

/-- State after the fourth push (`[x, y-1]`), i.e. after the whole iteration. -/
def floodS4 (bin w h x y : Nat) (rest : List GPt) (vis : Nat) : List GPt × Nat :=
  floodPush bin w h (floodS3 bin w h x y rest vis) x (y-1) (decide (0 < y))

/-- `floodLoop` with no fuel returns the marks. -/
theorem floodLoop_zero (bin w h : Nat) (stack : List GPt) (vis : Nat) :
    floodLoop bin w h 0 stack vis = vis := by
  cases stack with
  | nil => rfl
  | cons p rest => cases p with | mk x y => rfl

/-- `floodLoop` with an empty stack returns the marks. -/
theorem floodLoop_nil (bin w h f : Nat) (vis : Nat) :
    floodLoop bin w h (f+1) [] vis = vis := rfl

/-- One `floodLoop` iteration pops the top cell and runs the four pushes. -/
theorem floodLoop_cons (bin w h f x y : Nat) (rest : List GPt) (vis : Nat) :
    floodLoop bin w h (f+1) ((x, y) :: rest) vis =
      floodLoop bin w h f (floodS4 bin w h x y rest vis).1
        (floodS4 bin w h x y rest vis).2 := rfl

/-- Marks only grow over one iteration's pushes. -/
theorem floodS4_vis_mono (bin w h x y : Nat) (rest : List GPt) (vis : Nat) :
    ∀ j, vis.testBit j = true → (floodS4 bin w h x y rest vis).2.testBit j = true := by
  intro j hj
  exact floodPush_vis_mono bin w h (floodS3 bin w h x y rest vis) x (y-1) (decide (0 < y))
    (floodPush_vis_mono bin w h (floodS2 bin w h x y rest vis) x (y+1) true
      (floodPush_vis_mono bin w h (floodS1 bin w h x y rest vis) (x-1) y (decide (0 < x))
        (floodPush_vis_mono bin w h (rest, vis) (x+1) y true hj)))

/-- The popped cell's unpushed stack survives the iteration's pushes. -/
theorem floodS4_stack_mono (bin w h x y : Nat) (rest : List GPt) (vis : Nat) :
    ∀ p ∈ rest, p ∈ (floodS4 bin w h x y rest vis).1 := by
  intro p hp
  exact floodPush_stack_mono bin w h (floodS3 bin w h x y rest vis) x (y-1) (decide (0 < y)) p
    (floodPush_stack_mono bin w h (floodS2 bin w h x y rest vis) x (y+1) true p
      (floodPush_stack_mono bin w h (floodS1 bin w h x y rest vis) (x-1) y (decide (0 < x)) p
        (floodPush_stack_mono bin w h (rest, vis) (x+1) y true p hp)))

/-- The stack invariant survives one iteration. -/
theorem floodS4_stackinv (bin w h x y : Nat) (rest : List GPt) (vis : Nat)
    (hst : ∀ p ∈ rest, p.1 < w ∧ p.2 < h ∧ vis.testBit (p.2*w+p.1) = true) :
    ∀ p ∈ (floodS4 bin w h x y rest vis).1,
      p.1 < w ∧ p.2 < h ∧ (floodS4 bin w h x y rest vis).2.testBit (p.2*w+p.1) = true := by
  have h1 := floodPush_stackinv bin w h (rest, vis) (x+1) y true hst
  have h2 := floodPush_stackinv bin w h (floodS1 bin w h x y rest vis) (x-1) y
    (decide (0 < x)) h1
  have h3 := floodPush_stackinv bin w h (floodS2 bin w h x y rest vis) x (y+1) true h2
  exact floodPush_stackinv bin w h (floodS3 bin w h x y rest vis) x (y-1) (decide (0 < y)) h3

/-- Over one iteration the measure `stack length + unmarked cells` does not
increase (the popped cell is not yet counted here). -/
theorem floodS4_measure (bin w h x y : Nat) (rest : List GPt) (vis : Nat) :
    (floodS4 bin w h x y rest vis).1.length +
        (w*h - maskCard (w*h) (floodS4 bin w h x y rest vis).2) ≤
      rest.length + (w*h - maskCard (w*h) vis) := by
  have h1 := floodPush_measure bin w h (rest, vis) (x+1) y true
  have h2 := floodPush_measure bin w h (floodS1 bin w h x y rest vis) (x-1) y
    (decide (0 < x))
  have h3 := floodPush_measure bin w h (floodS2 bin w h x y rest vis) x (y+1) true
  have h4 := floodPush_measure bin w h (floodS3 bin w h x y rest vis) x (y-1)
    (decide (0 < y))
  exact le_trans h4 (le_trans h3 (le_trans h2 h1))

/-- After the four pushes every in-bounds background neighbour of the popped
cell is marked: either it was marked already, or its push succeeded. -/
theorem floodS4_popped (bin w h x y : Nat) (rest : List GPt) (vis : Nat)
    (hx : x < w) (hy : y < h) :
    closure4 bin w h (floodS4 bin w h x y rest vis).2 x y := by
  refine ⟨fun hxw hbin0 => ?_, fun hx0 hbin0 => ?_, fun hyh hbin0 => ?_, fun hy0 hbin0 => ?_⟩
  · exact floodPush_vis_mono bin w h (floodS3 bin w h x y rest vis) x (y-1) (decide (0 < y))
      (floodPush_vis_mono bin w h (floodS2 bin w h x y rest vis) x (y+1) true
        (floodPush_vis_mono bin w h (floodS1 bin w h x y rest vis) (x-1) y (decide (0 < x))
          ((floodPush_spec bin w h (rest, vis) (x+1) y true).2 rfl hxw hy hbin0)))
  · exact floodPush_vis_mono bin w h (floodS3 bin w h x y rest vis) x (y-1) (decide (0 < y))
      (floodPush_vis_mono bin w h (floodS2 bin w h x y rest vis) x (y+1) true
        ((floodPush_spec bin w h (floodS1 bin w h x y rest vis) (x-1) y
          (decide (0 < x))).2 (decide_eq_true hx0) (by omega) hy hbin0))
  · exact floodPush_vis_mono bin w h (floodS3 bin w h x y rest vis) x (y-1) (decide (0 < y))
      ((floodPush_spec bin w h (floodS2 bin w h x y rest vis) x (y+1) true).2
        rfl hx hyh hbin0)
  · exact (floodPush_spec bin w h (floodS3 bin w h x y rest vis) x (y-1)
      (decide (0 < y))).2 (decide_eq_true hy0) hx (by omega) hbin0

/-- Every cell marked after one iteration was marked before, or is a
just-pushed in-bounds cell currently on the stack. -/
theorem floodS4_new (bin w h x y : Nat) (rest : List GPt) (vis : Nat) :
    ∀ c, (floodS4 bin w h x y rest vis).2.testBit c = true →
      vis.testBit c = true ∨ ∃ a b, a < w ∧ b < h ∧ c = b*w+a ∧
        (a, b) ∈ (floodS4 bin w h x y rest vis).1 := by
  intro c hc
  rcases floodPush_new bin w h (floodS3 bin w h x y rest vis) x (y-1) (decide (0 < y)) c hc
    with h4 | ⟨hceq, hxw, hyh, hst⟩
  · rcases floodPush_new bin w h (floodS2 bin w h x y rest vis) x (y+1) true c h4
      with h3 | ⟨hceq, hxw, hyh, hst⟩
    · rcases floodPush_new bin w h (floodS1 bin w h x y rest vis) (x-1) y (decide (0 < x)) c h3
        with h2 | ⟨hceq, hxw, hyh, hst⟩
      · rcases floodPush_new bin w h (rest, vis) (x+1) y true c h2
          with h1 | ⟨hceq, hxw, hyh, hst⟩
        · exact Or.inl h1
        · refine Or.inr ⟨x+1, y, hxw, hyh, hceq, ?_⟩
          exact floodPush_stack_mono bin w h (floodS3 bin w h x y rest vis) x (y-1)
            (decide (0 < y)) _
            (floodPush_stack_mono bin w h (floodS2 bin w h x y rest vis) x (y+1) true _
              (floodPush_stack_mono bin w h (floodS1 bin w h x y rest vis) (x-1) y
                (decide (0 < x)) _ hst))
      · refine Or.inr ⟨x-1, y, hxw, hyh, hceq, ?_⟩
        exact floodPush_stack_mono bin w h (floodS3 bin w h x y rest vis) x (y-1)
          (decide (0 < y)) _
          (floodPush_stack_mono bin w h (floodS2 bin w h x y rest vis) x (y+1) true _ hst)
    · refine Or.inr ⟨x, y+1, hxw, hyh, hceq, ?_⟩
      exact floodPush_stack_mono bin w h (floodS3 bin w h x y rest vis) x (y-1)
        (decide (0 < y)) _ hst
  · exact Or.inr ⟨x, y-1, hxw, hyh, hceq, hst⟩

/-- Main flood-fill invariant: with the stack invariant (stacked cells are
in-bounds and marked), partial closure (every marked cell off the stack is
closed) and enough fuel, `floodLoop` returns a bitmask extending the marks,
closed under in-bounds background neighbours. -/
theorem floodLoop_post (bin w h : Nat) :
    ∀ (fuel : Nat) (stack : List GPt) (vis : Nat),
      (∀ p ∈ stack, p.1 < w ∧ p.2 < h ∧ vis.testBit (p.2*w+p.1) = true) →
      (∀ a b, a < w → b < h → vis.testBit (b*w+a) = true → (a, b) ∉ stack →
        closure4 bin w h vis a b) →
      stack.length + (w*h - maskCard (w*h) vis) ≤ fuel →
      (∀ j, vis.testBit j = true → (floodLoop bin w h fuel stack vis).testBit j = true) ∧
        floodClosed bin w h (floodLoop bin w h fuel stack vis) := by
  intro fuel
  induction fuel with
  | zero =>
      intro stack vis hstack hpart hfuel
      have hs : stack = [] := List.length_eq_zero.mp (by omega)
      subst hs
      rw [floodLoop_zero]
      exact ⟨fun j hj => hj,
        fun a b ha hb hmem => hpart a b ha hb hmem (List.not_mem_nil _)⟩
  | succ f ih =>
      intro stack vis hstack hpart hfuel
      cases stack with
      | nil =>
          rw [floodLoop_nil]
          exact ⟨fun j hj => hj,
            fun a b ha hb hmem => hpart a b ha hb hmem (List.not_mem_nil _)⟩
      | cons p rest =>
          obtain ⟨x, y⟩ := p
          rw [floodLoop_cons]
          obtain ⟨hx, hy, hxyv⟩ := hstack (x, y) (List.mem_cons_self _ _)
          have hinvr : ∀ q ∈ rest, q.1 < w ∧ q.2 < h ∧ vis.testBit (q.2*w+q.1) = true :=
            fun q hq => hstack q (List.mem_cons_of_mem _ hq)
          have hinv4 := floodS4_stackinv bin w h x y rest vis hinvr
          have hms := floodS4_measure bin w h x y rest vis
          have hfuel4 : (floodS4 bin w h x y rest vis).1.length +
              (w*h - maskCard (w*h) (floodS4 bin w h x y rest vis).2) ≤ f := by
            simp only [List.length_cons] at hfuel
            omega
          have hpart4 : ∀ a b, a < w → b < h →
              (floodS4 bin w h x y rest vis).2.testBit (b*w+a) = true →
              (a, b) ∉ (floodS4 bin w h x y rest vis).1 →
              closure4 bin w h (floodS4 bin w h x y rest vis).2 a b := by
            intro a b ha hb hmem hnst
            rcases floodS4_new bin w h x y rest vis _ hmem
              with hold | ⟨a', b', ha', hb', hceq, hst⟩
            · by_cases hab : a = x ∧ b = y
              · obtain ⟨hax, hby⟩ := hab
                subst hax
                subst hby
                exact floodS4_popped bin w h a b rest vis ha hb
              · by_cases hrest : (a, b) ∈ rest
                · exact absurd (floodS4_stack_mono bin w h x y rest vis _ hrest) hnst
                · have hnot : (a, b) ∉ (x, y) :: rest := by
                    intro hm
                    rcases List.mem_cons.mp hm with h1 | h1
                    · rw [Prod.mk.injEq] at h1
                      exact hab h1
                    · exact hrest h1
                  exact closure4_mono (floodS4_vis_mono bin w h x y rest vis)
                    (hpart a b ha hb hold hnot)
            · obtain ⟨hac, hbd⟩ := cellIdx_inj ha ha' hceq
              subst hac
              subst hbd
              exact absurd hst hnst
          obtain ⟨hsub', hcl'⟩ := ih (floodS4 bin w h x y rest vis).1
            (floodS4 bin w h x y rest vis).2 hinv4 hpart4 hfuel4
          exact ⟨fun j hj => hsub' j (floodS4_vis_mono bin w h x y rest vis j hj), hcl'⟩

/-- Bit `i` of the bitmask `1` is set exactly at the origin cell. -/
theorem testBit_one_iff (i : Nat) : ((1 : Nat).testBit i = true) ↔ i = 0 := by
  have h1 : (1 : Nat) = 2^0 := rfl
  rw [h1, Nat.testBit_two_pow]
  constructor
  · intro hd
    exact (of_decide_eq_true hd).symm
  · intro hd
    subst hd
    exact decide_eq_true rfl

/-- `floodFillBackground` marks the origin and, because its fuel `w·h + 1`
dominates the decreasing measure, terminates with a mask closed under
in-bounds background neighbours. -/
theorem floodFillBackground_covers (bin w h : Nat) (hw : 0 < w) (hh : 0 < h) :
    (floodFillBackground bin w h).testBit 0 = true ∧
      floodClosed bin w h (floodFillBackground bin w h) := by
  have hstack : ∀ p ∈ ([(0, 0)] : List GPt),
      p.1 < w ∧ p.2 < h ∧ (1 : Nat).testBit (p.2*w+p.1) = true := by
    intro p hp
    rw [List.mem_singleton] at hp
    subst hp
    refine ⟨hw, hh, ?_⟩
    rw [testBit_one_iff]
    simp
  have hpart : ∀ a b, a < w → b < h → (1 : Nat).testBit (b*w+a) = true →
      (a, b) ∉ ([(0, 0)] : List GPt) → closure4 bin w h 1 a b := by
    intro a b ha hb hmem hnst
    exfalso
    apply hnst
    rw [testBit_one_iff] at hmem
    have ha0 : a = 0 := by omega
    have hbw : b*w = 0 := by omega
    have hb0 : b = 0 := by
      rcases Nat.mul_eq_zero.mp hbw with h1 | h1
      · exact h1
      · omega
    subst ha0
    subst hb0
    exact List.mem_singleton.mpr rfl
  have hfuel : ([(0, 0)] : List GPt).length + (w*h - maskCard (w*h) 1) ≤ w*h+1 := by
    simp only [List.length_singleton]
    omega
  obtain ⟨hsub, hcl⟩ := floodLoop_post bin w h (w*h+1) [(0, 0)] 1 hstack hpart hfuel
  exact ⟨hsub 0 ((testBit_one_iff 0).mpr rfl), hcl⟩

/-- On the all-zero mask the background flood reaches every cell: row 0 by
walking right from the origin, then each column by walking down. -/
theorem floodFillBackground_zero_covers (w h : Nat) (hw : 0 < w) (hh : 0 < h) :
    ∀ b, b < h → ∀ a, a < w →
      (floodFillBackground 0 w h).testBit (b*w+a) = true := by
  obtain ⟨h0, hcl⟩ := floodFillBackground_covers 0 w h hw hh
  have hrow : ∀ a, a < w → (floodFillBackground 0 w h).testBit (0*w+a) = true := by
    intro a
    induction a with
    | zero => intro _; simpa using h0
    | succ a iha =>
        intro ha
        have hmem := iha (by omega)
        have hc := hcl a 0 (by omega) hh hmem
        exact hc.1 ha (maskGet_zero _)
  intro b
  induction b with
  | zero => intro _ a ha; exact hrow a ha
  | succ b ihb =>
      intro hb a ha
      have hmem := ihb (by omega) a ha
      have hc := hcl a b ha (by omega) hmem
      exact hc.2.2.1 hb (maskGet_zero _)

/-- Index form of full coverage on the all-zero mask. -/
theorem floodFillBackground_zero_all (w h : Nat) (hw : 0 < w) (hh : 0 < h) :
    ∀ i, i < w*h → (floodFillBackground 0 w h).testBit i = true := by
  intro i hi
  have hx : i % w < w := Nat.mod_lt _ hw
  have hy : i / w < h := (Nat.div_lt_iff_lt_mul hw).mpr (Nat.mul_comm w h ▸ hi)
  have hmem := floodFillBackground_zero_covers w h hw hh (i/w) hy (i%w) hx
  have hidx : (i/w)*w + i%w = i := by
    rw [Nat.mul_comm]
    exact Nat.div_add_mod i w
  rwa [hidx] at hmem

/-- With an all-zero binary mask the whole grid is background, so the
inverted background mask is the zero mask. -/
theorem invertMask_flood_zero (w h : Nat) (hw : 0 < w) (hh : 0 < h) :
    invertMask (w*h) (floodFillBackground 0 w h) = 0 := by
  show buildMask (w*h) (fun i => !(floodFillBackground 0 w h).testBit i) = 0
  refine buildMask_eq_zero fun i hi => ?_
  rw [floodFillBackground_zero_all w h hw hh i hi]
  rfl

/-- The zero mask yields an empty pseudo-region. -/
theorem maskToRegion_zero_pixels (w h : Nat) : (maskToRegion 0 w h).pixels = [] := by
  show ((List.range (w*h)).filterMap fun i =>
    if maskGet 0 i = 1 then some (i % w, i / w) else none) = []
  simp [List.filterMap_eq_nil_iff, maskGet_zero]

/-- Stage A emits nothing on the all-zero binary mask. -/
theorem silhouettePaths_zero (w h : Nat) (params : ProcessingParams)
    (hw : 0 < w) (hh : 0 < h) : silhouettePaths 0 w h params = [] := by
  simp only [silhouettePaths]
  rw [dilateMask_zero, invertMask_flood_zero w h hw hh, maskToRegion_zero_pixels]
  simp

/-- Helper: a fold whose step fixes every state is the identity. -/
theorem foldl_id {α β : Type} (f : β → α → β) (l : List α) (init : β)
    (h : ∀ st a, f st a = st) : l.foldl f init = init := by
  induction l generalizing init with
  | nil => rfl
  | cons head tail ih => rw [List.foldl_cons, h, ih]

/-- The region scan finds no region in the all-zero binary mask. -/
theorem identifyRegions_zero (w h : Nat) : identifyRegions 0 w h = [] := by
  unfold identifyRegions
  have hstep : ∀ (st : List Region × Finset Nat) (i : Nat),
      (if maskGet 0 i = 1 ∧ i ∉ st.2 then
        regKeep st (floodFill 0 w h st.2 (i % w) (i / w)) else st) = st := by
    intro st i
    rw [if_neg]
    rintro ⟨h1, -⟩
    rw [maskGet_zero] at h1
    exact absurd h1 (by omega)
  rw [foldl_id _ _ _ hstep]

/-- No region survives the noise floor on the all-zero binary mask. -/
theorem validRegions_zero (w h : Nat) : validRegions 0 w h = [] := by
  unfold validRegions
  rw [identifyRegions_zero]
  rfl

/-- Stage B emits nothing on the all-zero binary mask. -/
theorem innerPaths_zero (w h : Nat) (params : ProcessingParams) :
    innerPaths 0 w h params = [] := by
  unfold innerPaths
  split_ifs with hd
  · rw [validRegions_zero]
    rfl
  · rfl

/-- C9: on every all-background input — any pixel buffer that binarizes to
the all-zero mask, e.g. an all-white image — the pipeline succeeds with an
empty result: the full, cut and engrave layers are all empty and the
statistics record is present with `totalPaths = 0` (and every other counter
0). -/
theorem process_all_background (data : List Nat) (w h : Nat) (params : ProcessingParams)
    (hw : 0 < w) (hh : 0 < h) (hbin : toBinary 180 data = 0) :
    (processWithParams data w h params).allPaths = [] ∧
    (processWithParams data w h params).cutPaths = [] ∧
    (processWithParams data w h params).engravePaths = [] ∧
    (processWithParams data w h params).stats =
      { centerlineCount := 0, outlineCount := 0, gapsDetected := 0, totalPaths := 0 } := by
  simp only [processWithParams, processBin]
  rw [hbin, silhouettePaths_zero w h params hw hh, innerPaths_zero w h params]
  simp

/-- Witness for C9 on a concrete all-white 1×1 image. -/
theorem process_all_background_witness :
    (0 < 1 ∧ toBinary 180 [255, 255, 255, 255] = 0) ∧
    ((processWithParams [255, 255, 255, 255] 1 1 ⟨40, 50⟩).allPaths = [] ∧
      (processWithParams [255, 255, 255, 255] 1 1 ⟨40, 50⟩).cutPaths = [] ∧
      (processWithParams [255, 255, 255, 255] 1 1 ⟨40, 50⟩).engravePaths = [] ∧
      (processWithParams [255, 255, 255, 255] 1 1 ⟨40, 50⟩).stats =
        { centerlineCount := 0, outlineCount := 0, gapsDetected := 0, totalPaths := 0 }) :=
  ⟨⟨by decide, by decide⟩,
    process_all_background [255, 255, 255, 255] 1 1 ⟨40, 50⟩ (by decide) (by decide) (by decide)⟩

/-! ## C10 — Stage A does not mutate the binarized mask

Store-level model of the Stage A buffer discipline.  A `Store` is the list
of allocated `Uint8Array`s; a buffer reference is its index.  `new
Uint8Array(n)` is an allocation of a zero buffer, `new Uint8Array(buf)` an
allocation of a copy, and an element assignment is a store write.  Buffers
the source allocates and fills in a single initialisation loop before they
become reachable from anything else (`invertMask`'s `res`) are modelled by
allocating the fully initialised buffer. -/

/-- The allocated buffers, by allocation order. -/
abbrev Store : Type := List (List Nat)

/-- Read a whole buffer. -/
def sget (s : Store) (r : Nat) : List Nat := List.getD s r []

/-- Allocate a buffer, returning the new store and the fresh reference. -/
def salloc (s : Store) (buf : List Nat) : Store × Nat := (s ++ [buf], List.length s)

/-- Write one element of one buffer. -/
def swrite (s : Store) (r i v : Nat) : Store := List.set s r ((sget s r).set i v)

/-- The store's allocation count. -/
def ssize (s : Store) : Nat := List.length s

/-- Cell writes of one dilation pass at index `idx` (part_004 lines 172–182):
if the current mask is 1 there, write 1 to the cell and its in-bounds
4-neighbours in the `next` buffer.  The source's row-major double loop visits
`idx = y·w+x` in increasing order, here a single loop over `w·h`. -/
def dilateCellS (w h cref nref : Nat) (s : Store) (idx : Nat) : Store :=
  if (sget s cref).getD idx 0 = 1 then
    let s0 := swrite s nref idx 1
    let s1 := if 0 < idx % w then swrite s0 nref (idx-1) 1 else s0
    let s2 := if idx % w + 1 < w then swrite s1 nref (idx+1) 1 else s1
    let s3 := if 0 < idx / w then swrite s2 nref (idx-w) 1 else s2
    if idx / w + 1 < h then swrite s3 nref (idx+w) 1 else s3
  else s

/-- One dilation pass (part_004 lines 170–184): allocate the zeroed `next`
buffer and run the write loop against the current mask `cref`. -/
def dilatePassS (w h : Nat) (s : Store) (cref : Nat) : Store × Nat :=
  let a := salloc s (List.replicate (w*h) 0)
  ((List.range (w*h)).foldl (dilateCellS w h cref a.2) a.1, a.2)

/-- The `r` dilation passes, rebinding `curr` to each pass's `next`. -/
def dilateLoopS (w h : Nat) : Nat → Store × Nat → Store × Nat
  | 0, sc => sc
  | k+1, sc => dilateLoopS w h k (dilatePassS w h sc.1 sc.2)

/-- Store-level `dilateMask` (part_004 lines 166–186): `r = 0` returns the
input reference itself (the source aliases, not copies); otherwise `curr`
starts as a freshly allocated copy of the input. -/
def dilateMaskS (s : Store) (mref w h : Nat) : Nat → Store × Nat
  | 0 => (s, mref)
  | r+1 => dilateLoopS w h (r+1) (salloc s (sget s mref))

/-- Store-level conditional push of the background flood (part_004 lines
198–206): bounds check, then `visited` test, then mask test; on success both
`visited` and the output mask are written. -/
def ffbPush (w h bin mref vref : Nat) (st : Store × List GPt) (nx ny : Nat)
    (ok : Bool) : Store × List GPt :=
  if ok ∧ nx < w ∧ ny < h ∧ (sget st.1 vref).getD (ny*w+nx) 0 = 0 ∧
      (sget st.1 bin).getD (ny*w+nx) 0 = 0
  then (swrite (swrite st.1 vref (ny*w+nx) 1) mref (ny*w+nx) 1, (nx, ny) :: st.2)
  else st

/-- Store-level main loop of `floodFillBackground` (part_004 lines 195–208). -/
def ffbLoop (w h bin mref vref : Nat) : Nat → Store × List GPt → Store
  | 0, st => st.1
  | _+1, (s, []) => s
  | fuel+1, (s, (x, y) :: rest) =>
      let p1 := ffbPush w h bin mref vref (s, rest) (x+1) y true
      let p2 := ffbPush w h bin mref vref p1 (x-1) y (decide (0 < x))
      let p3 := ffbPush w h bin mref vref p2 x (y+1) true
      let p4 := ffbPush w h bin mref vref p3 x (y-1) (decide (0 < y))
      ffbLoop w h bin mref vref fuel p4

/-- Store-level `floodFillBackground` (part_004 lines 188–210): allocate the
output mask and the visited buffer, mark the origin in both, run the loop,
return the mask's reference. -/
def floodFillBackgroundS (s : Store) (bin w h : Nat) : Store × Nat :=
  let a1 := salloc s (List.replicate (w*h) 0)
  let a2 := salloc a1.1 (List.replicate (w*h) 0)
  let s1 := swrite a2.1 a2.2 0 1
  let s2 := swrite s1 a1.2 0 1
  (ffbLoop w h bin a1.2 a2.2 (w*h+1) (s2, [(0, 0)]), a1.2)

/-- Store-level `invertMask` (part_004 lines 212–216): allocate `res` and
fill it cell by cell from the input (initialisation writes folded into the
allocation). -/
def invertMaskS (s : Store) (m : Nat) : Store × Nat :=
  salloc s ((List.range (sget s m).length).map fun i =>
    if (sget s m).getD i 0 = 1 then 0 else 1)

/-- Stage A's buffer chain on the binary mask reference (part_004 lines
70–72): dilate by 4, flood the background, invert. -/
def stageAChainS (s : Store) (bin w h : Nat) : Store × Nat :=
  let d := dilateMaskS s bin w h 4
  let b := floodFillBackgroundS d.1 d.2 w h
  invertMaskS b.1 b.2

/-- Writing an element never changes the allocation count. -/
theorem ssize_swrite (s : Store) (r0 i v : Nat) : ssize (swrite s r0 i v) = ssize s :=
  List.length_set s r0 _

/-- Writing an element of one buffer leaves every other buffer unchanged. -/
theorem sget_swrite_ne {s : Store} {r0 i v r : Nat} (h : r ≠ r0) :
    sget (swrite s r0 i v) r = sget s r := by
  unfold sget swrite
  rw [List.getD_eq_getElem?_getD, List.getD_eq_getElem?_getD,
    List.getElem?_set_ne (Ne.symm h)]

/-- Allocation adds exactly one buffer. -/
theorem ssize_salloc (s : Store) (b : List Nat) : ssize (salloc s b).1 = ssize s + 1 := by
  show (s ++ [b]).length = s.length + 1
  rw [List.length_append, List.length_singleton]

/-- Allocation leaves every previously allocated buffer unchanged. -/
theorem sget_salloc_lt {s : Store} {b : List Nat} {r : Nat} (hr : r < ssize s) :
    sget (salloc s b).1 r = sget s r := by
  show (s ++ [b]).getD r [] = s.getD r []
  exact List.getD_append s [b] [] r hr

/-- Folding store steps that each fix buffer `r` fixes buffer `r`. -/
theorem store_foldl_frame {α : Type} (f : Store → α → Store) (l : List α) (r : Nat)
    (hf : ∀ s i, sget (f s i) r = sget s r) : ∀ s, sget (l.foldl f s) r = sget s r := by
  induction l with
  | nil => intro s; rfl
  | cons head tail ih =>
      intro s
      rw [List.foldl_cons, ih, hf]

/-- Folding allocation-free store steps preserves the allocation count. -/
theorem store_foldl_size {α : Type} (f : Store → α → Store) (l : List α)
    (hf : ∀ s i, ssize (f s i) = ssize s) : ∀ s, ssize (l.foldl f s) = ssize s := by
  induction l with
  | nil => intro s; rfl
  | cons head tail ih =>
      intro s
      rw [List.foldl_cons, ih, hf]

/-- One dilation cell writes only the pass's `next` buffer. -/
theorem dilateCellS_frame {w h cref nref : Nat} (s : Store) (idx : Nat) {r : Nat}
    (hne : r ≠ nref) : sget (dilateCellS w h cref nref s idx) r = sget s r := by
  simp only [dilateCellS]
  split_ifs <;> simp only [sget_swrite_ne hne]

/-- One dilation cell allocates nothing. -/
theorem dilateCellS_size (w h cref nref : Nat) (s : Store) (idx : Nat) :
    ssize (dilateCellS w h cref nref s idx) = ssize s := by
  simp only [dilateCellS]
  split_ifs <;> simp only [ssize_swrite]

/-- One dilation pass adds one buffer and changes no existing buffer. -/
theorem dilatePassS_frame (w h : Nat) (s : Store) (cref : Nat) :
    ssize s + 1 = ssize (dilatePassS w h s cref).1 ∧
    ∀ r, r < ssize s → sget (dilatePassS w h s cref).1 r = sget s r := by
  constructor
  · show ssize s + 1 = ssize ((List.range (w*h)).foldl
      (dilateCellS w h cref (salloc s (List.replicate (w*h) 0)).2)
      (salloc s (List.replicate (w*h) 0)).1)
    rw [store_foldl_size _ _ (fun s' i => dilateCellS_size w h cref _ s' i),
      ssize_salloc]
  · intro r hr
    have hne : r ≠ (salloc s (List.replicate (w*h) 0)).2 := Nat.ne_of_lt hr
    show sget ((List.range (w*h)).foldl
      (dilateCellS w h cref (salloc s (List.replicate (w*h) 0)).2)
      (salloc s (List.replicate (w*h) 0)).1) r = sget s r
    rw [store_foldl_frame _ _ r (fun s' i => dilateCellS_frame s' i hne)]
    exact sget_salloc_lt hr

/-- The dilation pass loop only grows the store and changes no buffer
existing before it ran. -/
theorem dilateLoopS_frame (w h : Nat) :
    ∀ (k : Nat) (sc : Store × Nat),
      ssize sc.1 ≤ ssize (dilateLoopS w h k sc).1 ∧
      ∀ r, r < ssize sc.1 → sget (dilateLoopS w h k sc).1 r = sget sc.1 r := by
  intro k
  induction k with
  | zero => exact fun sc => ⟨le_refl _, fun r _ => rfl⟩
  | succ k ih =>
      intro sc
      have hpass := dilatePassS_frame w h sc.1 sc.2
      have hih := ih (dilatePassS w h sc.1 sc.2)
      refine ⟨?_, fun r hr => ?_⟩
      · show ssize sc.1 ≤ ssize (dilateLoopS w h k (dilatePassS w h sc.1 sc.2)).1
        omega
      · show sget (dilateLoopS w h k (dilatePassS w h sc.1 sc.2)).1 r = sget sc.1 r
        rw [hih.2 r (by omega), hpass.2 r hr]

/-- `dilateMaskS` only grows the store and changes no pre-existing buffer,
for every radius (at radius 0 it performs no allocation or write at all). -/
theorem dilateMaskS_frame (s : Store) (mref w h : Nat) :
    ∀ rad, ssize s ≤ ssize (dilateMaskS s mref w h rad).1 ∧
      ∀ r, r < ssize s → sget (dilateMaskS s mref w h rad).1 r = sget s r := by
  intro rad
  cases rad with
  | zero => exact ⟨le_refl _, fun r _ => rfl⟩
  | succ k =>
      have hloop := dilateLoopS_frame w h (k+1) (salloc s (sget s mref))
      have hsz : ssize (salloc s (sget s mref)).1 = ssize s + 1 := ssize_salloc _ _
      refine ⟨?_, fun r hr => ?_⟩
      · show ssize s ≤ ssize (dilateLoopS w h (k+1) (salloc s (sget s mref))).1
        omega
      · show sget (dilateLoopS w h (k+1) (salloc s (sget s mref))).1 r = sget s r
        rw [hloop.2 r (by omega)]
        exact sget_salloc_lt hr

/-- A flood push writes only the mask and visited buffers. -/
theorem ffbPush_frame {w h bin mref vref : Nat} (st : Store × List GPt)
    (nx ny : Nat) (ok : Bool) {r : Nat} (hm : r ≠ mref) (hv : r ≠ vref) :
    sget (ffbPush w h bin mref vref st nx ny ok).1 r = sget st.1 r := by
  unfold ffbPush
  split_ifs
  · exact (sget_swrite_ne hm).trans (sget_swrite_ne hv)
  · rfl

/-- A flood push allocates nothing. -/
theorem ffbPush_size (w h bin mref vref : Nat) (st : Store × List GPt)
    (nx ny : Nat) (ok : Bool) :
    ssize (ffbPush w h bin mref vref st nx ny ok).1 = ssize st.1 := by
  unfold ffbPush
  split_ifs
  · exact (ssize_swrite _ _ _ _).trans (ssize_swrite _ _ _ _)
  · rfl

/-- The flood loop writes only the mask and visited buffers. -/
theorem ffbLoop_frame (w h bin mref vref : Nat) :
    ∀ (fuel : Nat) (st : Store × List GPt) {r : Nat}, r ≠ mref → r ≠ vref →
      sget (ffbLoop w h bin mref vref fuel st) r = sget st.1 r := by
  intro fuel
  induction fuel with
  | zero => intro st r hm hv; rfl
  | succ f ih =>
      intro st r hm hv
      obtain ⟨s, stack⟩ := st
      cases stack with
      | nil => rfl
      | cons p rest =>
          obtain ⟨x, y⟩ := p
          show sget (ffbLoop w h bin mref vref f
            (ffbPush w h bin mref vref
              (ffbPush w h bin mref vref
                (ffbPush w h bin mref vref
                  (ffbPush w h bin mref vref (s, rest) (x+1) y true)
                  (x-1) y (decide (0 < x)))
                x (y+1) true)
              x (y-1) (decide (0 < y)))) r = sget s r
          rw [ih _ hm hv, ffbPush_frame _ _ _ _ hm hv, ffbPush_frame _ _ _ _ hm hv,
            ffbPush_frame _ _ _ _ hm hv, ffbPush_frame _ _ _ _ hm hv]

/-- The flood loop allocates nothing. -/
theorem ffbLoop_size (w h bin mref vref : Nat) :
    ∀ (fuel : Nat) (st : Store × List GPt),
      ssize (ffbLoop w h bin mref vref fuel st) = ssize st.1 := by
  intro fuel
  induction fuel with
  | zero => intro st; rfl
  | succ f ih =>
      intro st
      obtain ⟨s', stack⟩ := st
      cases stack with
      | nil => rfl
      | cons p rest =>
          obtain ⟨x, y⟩ := p
          show ssize (ffbLoop w h bin mref vref f
            (ffbPush w h bin mref vref
              (ffbPush w h bin mref vref
                (ffbPush w h bin mref vref
                  (ffbPush w h bin mref vref (s', rest) (x+1) y true)
                  (x-1) y (decide (0 < x)))
                x (y+1) true)
              x (y-1) (decide (0 < y)))) = ssize s'
          rw [ih, ffbPush_size, ffbPush_size, ffbPush_size, ffbPush_size]

/-- `floodFillBackgroundS` adds two buffers and changes no existing buffer. -/
theorem floodFillBackgroundS_frame (s : Store) (bin w h : Nat) :
    ssize (floodFillBackgroundS s bin w h).1 = ssize s + 2 ∧
    ∀ r, r < ssize s → sget (floodFillBackgroundS s bin w h).1 r = sget s r := by
  have hs1 : ssize (salloc s (List.replicate (w*h) 0)).1 = ssize s + 1 :=
    ssize_salloc _ _
  have hs2 : ssize (salloc (salloc s (List.replicate (w*h) 0)).1
      (List.replicate (w*h) 0)).1 = ssize s + 2 := by
    rw [ssize_salloc, hs1]
  constructor
  · show ssize (ffbLoop w h bin (salloc s (List.replicate (w*h) 0)).2
      (salloc (salloc s (List.replicate (w*h) 0)).1 (List.replicate (w*h) 0)).2 (w*h+1)
      (swrite (swrite (salloc (salloc s (List.replicate (w*h) 0)).1
          (List.replicate (w*h) 0)).1
        (salloc (salloc s (List.replicate (w*h) 0)).1 (List.replicate (w*h) 0)).2 0 1)
        (salloc s (List.replicate (w*h) 0)).2 0 1, [(0, 0)])) = ssize s + 2
    rw [ffbLoop_size]
    show ssize (swrite (swrite _ _ 0 1) _ 0 1) = ssize s + 2
    rw [ssize_swrite, ssize_swrite, hs2]
  · intro r hr
    have hne1 : r ≠ (salloc s (List.replicate (w*h) 0)).2 := Nat.ne_of_lt hr
    have hne2 : r ≠ (salloc (salloc s (List.replicate (w*h) 0)).1
        (List.replicate (w*h) 0)).2 := by
      show r ≠ ssize (salloc s (List.replicate (w*h) 0)).1
      omega
    show sget (ffbLoop w h bin (salloc s (List.replicate (w*h) 0)).2
      (salloc (salloc s (List.replicate (w*h) 0)).1 (List.replicate (w*h) 0)).2 (w*h+1)
      (swrite (swrite (salloc (salloc s (List.replicate (w*h) 0)).1
          (List.replicate (w*h) 0)).1
        (salloc (salloc s (List.replicate (w*h) 0)).1 (List.replicate (w*h) 0)).2 0 1)
        (salloc s (List.replicate (w*h) 0)).2 0 1, [(0, 0)])) r = sget s r
    rw [ffbLoop_frame w h bin _ _ (w*h+1) _ hne1 hne2]
    show sget (swrite (swrite _ _ 0 1) _ 0 1) r = sget s r
    rw [sget_swrite_ne hne1, sget_swrite_ne hne2,
      sget_salloc_lt (by omega), sget_salloc_lt hr]

/-- `invertMaskS` adds one buffer and changes no existing buffer. -/
theorem invertMaskS_frame (s : Store) (m : Nat) :
    ssize (invertMaskS s m).1 = ssize s + 1 ∧
    ∀ r, r < ssize s → sget (invertMaskS s m).1 r = sget s r :=
  ⟨ssize_salloc _ _, fun _ hr => sget_salloc_lt hr⟩

/-- C10: Stage A never mutates an existing buffer.  Every buffer allocated
before a call to `dilateMask` (any radius; at radius 1 and above it writes
only the freshly allocated copy and pass buffers), `floodFillBackground` or
`invertMask` reads back unchanged afterwards, and in particular the
binarized mask that Stage B's region finder scans is elementwise identical
to the output of binarization after the whole Stage A chain has run. -/
theorem stageA_preserves_buffers (s : Store) (bin w h r : Nat)
    (hr : r < ssize s) (hb : bin < ssize s) :
    (∀ rad, sget (dilateMaskS s bin w h rad).1 r = sget s r) ∧
    sget (floodFillBackgroundS s bin w h).1 r = sget s r ∧
    sget (invertMaskS s bin).1 r = sget s r ∧
    sget (stageAChainS s bin w h).1 bin = sget s bin := by
  refine ⟨fun rad => (dilateMaskS_frame s bin w h rad).2 r hr,
    (floodFillBackgroundS_frame s bin w h).2 r hr,
    (invertMaskS_frame s bin).2 r hr, ?_⟩
  have hd := dilateMaskS_frame s bin w h 4
  have hf := floodFillBackgroundS_frame (dilateMaskS s bin w h 4).1
    (dilateMaskS s bin w h 4).2 w h
  have hi := invertMaskS_frame
    (floodFillBackgroundS (dilateMaskS s bin w h 4).1 (dilateMaskS s bin w h 4).2 w h).1
    (floodFillBackgroundS (dilateMaskS s bin w h 4).1 (dilateMaskS s bin w h 4).2 w h).2
  show sget (invertMaskS
    (floodFillBackgroundS (dilateMaskS s bin w h 4).1 (dilateMaskS s bin w h 4).2 w h).1
    (floodFillBackgroundS (dilateMaskS s bin w h 4).1 (dilateMaskS s bin w h 4).2 w h).2).1
      bin = sget s bin
  rw [hi.2 bin (by omega), hf.2 bin (by omega), hd.2 bin hb]

/-- Witness for C10 on a concrete one-buffer store holding a 2×2 mask. -/
theorem stageA_preserves_buffers_witness :
    ((0 < ssize ([[1, 0, 0, 0]] : Store)) ∧ (0 < ssize ([[1, 0, 0, 0]] : Store))) ∧
    (sget (dilateMaskS [[1, 0, 0, 0]] 0 2 2 4).1 0 = sget [[1, 0, 0, 0]] 0 ∧
      sget (floodFillBackgroundS [[1, 0, 0, 0]] 0 2 2).1 0 = sget [[1, 0, 0, 0]] 0 ∧
      sget (invertMaskS [[1, 0, 0, 0]] 0).1 0 = sget [[1, 0, 0, 0]] 0 ∧
      sget (stageAChainS [[1, 0, 0, 0]] 0 2 2).1 0 = sget [[1, 0, 0, 0]] 0) :=
  ⟨⟨by decide, by decide⟩,
    have h := stageA_preserves_buffers [[1, 0, 0, 0]] 0 2 2 0 (by decide) (by decide)
    ⟨h.1 4, h.2.1, h.2.2.1, h.2.2.2⟩⟩

/-! ## C2 — output vertex bounds

The spec claims every emitted vertex lies in the unpadded extent
`[0, W−2P] × [0, H−2P]`.  The silhouette is traced on the 4-dilated mask,
whose contour can enter the padding margin, so coordinates below 0 (after
the `−P` offset) do occur; what does hold is that every traced pixel is an
in-bounds grid pixel and the moving average keeps coordinates inside the
grid's coordinate range, so every output vertex lies in
`[−P, W−1−P] × [−P, H−1−P]`. -/

/-- A real-valued point inside the `w × h` pixel grid. -/
def inFrame (w h : Nat) (v : RPt) : Prop :=
  0 ≤ v.1 ∧ v.1 ≤ (w : Rat) - 1 ∧ 0 ≤ v.2 ∧ v.2 ≤ (h : Rat) - 1

/-- Grid points cast into the rationals are in the frame. -/
theorem inFrame_cast {w h : Nat} {p : GPt} (hx : p.1 < w) (hy : p.2 < h) :
    inFrame w h ((p.1 : Rat), (p.2 : Rat)) := by
  have h1 : (p.1 : Rat) + 1 ≤ (w : Rat) := by exact_mod_cast hx
  have h2 : (p.2 : Rat) + 1 ≤ (h : Rat) := by exact_mod_cast hy
  exact ⟨Nat.cast_nonneg _, by linarith, Nat.cast_nonneg _, by linarith⟩

/-- The average of a nonempty list of rationals lies between any bounds on
its members. -/
theorem sum_div_length_bounds (l : List Rat) (lo hi : Rat) (hne : l ≠ [])
    (hb : ∀ v ∈ l, lo ≤ v ∧ v ≤ hi) :
    lo ≤ l.sum / l.length ∧ l.sum / l.length ≤ hi := by
  have hlen : 0 < (l.length : Rat) := by
    have h1 : 0 < l.length := List.length_pos.mpr hne
    exact_mod_cast h1
  constructor
  · rw [le_div_iff₀ hlen]
    calc lo * l.length = (l.length : Rat) * lo := mul_comm _ _
    _ = l.length • lo := (nsmul_eq_mul _ _).symm
    _ ≤ l.sum := List.card_nsmul_le_sum l lo fun x hx => (hb x hx).1
  · rw [div_le_iff₀ hlen]
    calc l.sum ≤ l.length • hi := List.sum_le_card_nsmul l hi fun x hx => (hb x hx).2
    _ = (l.length : Rat) * hi := nsmul_eq_mul _ _
    _ = hi * l.length := mul_comm _ _

/-- An in-range `getD` is a member. -/
theorem getD_mem_of_lt {l : List RPt} {i : Nat} (h : i < l.length) :
    l.getD i (0, 0) ∈ l := by
  rw [List.getD_eq_getElem l (0, 0) h]
  exact List.getElem_mem h

/-- The head with default of a nonempty list is a member. -/
theorem headD_mem {l : List RPt} (h : l ≠ []) (d : RPt) : l.headD d ∈ l := by
  cases l with
  | nil => exact absurd rfl h
  | cons a t => exact List.mem_cons_self a t

/-- The window-3 moving average keeps points inside the frame. -/
theorem smoothAt_inFrame {w h : Nat} {p : List RPt} (hp : ∀ v ∈ p, inFrame w h v)
    {i : Nat} (hi : i < p.length) : inFrame w h (smoothAt p i) := by
  simp only [smoothAt]
  have hwin : ∀ v ∈ (if i = 0 then ([] : List RPt) else [p.getD (i-1) (0, 0)]) ++
      [p.getD i (0, 0)] ++
      (if i + 1 < p.length then [p.getD (i+1) (0, 0)] else []), inFrame w h v := by
    intro v hv
    rcases List.mem_append.mp hv with hv1 | hv2
    · rcases List.mem_append.mp hv1 with hv3 | hv4
      · split_ifs at hv3 with h0
        · simp at hv3
        · rw [List.mem_singleton] at hv3
          subst hv3
          exact hp _ (getD_mem_of_lt (by omega))
      · rw [List.mem_singleton] at hv4
        subst hv4
        exact hp _ (getD_mem_of_lt hi)
    · split_ifs at hv2 with h1
      · rw [List.mem_singleton] at hv2
        subst hv2
        exact hp _ (getD_mem_of_lt h1)
      · simp at hv2
  set win : List RPt := (if i = 0 then ([] : List RPt) else [p.getD (i-1) (0, 0)]) ++
      [p.getD i (0, 0)] ++
      (if i + 1 < p.length then [p.getD (i+1) (0, 0)] else []) with hwdef
  have hne : win ≠ [] := by
    intro hnil
    have h2 : win.length = 0 := by rw [hnil]; rfl
    rw [hwdef] at h2
    simp [List.length_append] at h2
  have hfst := sum_div_length_bounds (win.map Prod.fst) 0 ((w : Rat) - 1)
    (by
      intro hnil
      rw [List.map_eq_nil_iff] at hnil
      exact hne hnil)
    (by
      intro a ha
      obtain ⟨u, hu, rfl⟩ := List.mem_map.mp ha
      exact ⟨(hwin u hu).1, (hwin u hu).2.1⟩)
  have hsnd := sum_div_length_bounds (win.map Prod.snd) 0 ((h : Rat) - 1)
    (by
      intro hnil
      rw [List.map_eq_nil_iff] at hnil
      exact hne hnil)
    (by
      intro a ha
      obtain ⟨u, hu, rfl⟩ := List.mem_map.mp ha
      exact ⟨(hwin u hu).2.2.1, (hwin u hu).2.2.2⟩)
  rw [List.length_map] at hfst hsnd
  exact ⟨hfst.1, hfst.2, hsnd.1, hsnd.2⟩

/-- The working point list of `optimizePath` stays inside the frame when the
input pixels are in the grid. -/
theorem optPoints_inFrame {w h : Nat} {path : List GPt}
    (hp : ∀ q ∈ path, q.1 < w ∧ q.2 < h) :
    ∀ v ∈ optPoints path, inFrame w h v := by
  intro v hv
  have hcast : ∀ u ∈ path.map (fun q => ((q.1 : Rat), (q.2 : Rat))), inFrame w h u := by
    intro u hu
    obtain ⟨q, hq, rfl⟩ := List.mem_map.mp hu
    exact inFrame_cast (hp q hq).1 (hp q hq).2
  unfold optPoints at hv
  split_ifs at hv with hlen
  · unfold smoothPts at hv
    obtain ⟨i, hi, rfl⟩ := List.mem_map.mp hv
    rw [List.mem_range] at hi
    exact smoothAt_inFrame hcast hi
  · exact hcast v hv

/-- Every point of every path `optimizePath` emits stays inside the frame
when the input pixels are in the grid (the closure snap only copies the
first point). -/
theorem optimizePath_inFrame {w h : Nat} {path : List GPt} {params : ProcessingParams}
    {ty : PathType} {o : OptimizedPath}
    (hp : ∀ q ∈ path, q.1 < w ∧ q.2 < h)
    (ho : optimizePath path params ty = some o) :
    ∀ v ∈ o.points, inFrame w h v := by
  intro v hv
  have hopt := optPoints_inFrame hp
  unfold optimizePath at ho
  split_ifs at ho with h2 hcl
  · have ho' := Option.some.inj ho
    subst ho'
    rcases List.mem_append.mp hv with hv1 | hv2
    · exact hopt v (List.dropLast_subset _ hv1)
    · rw [List.mem_singleton] at hv2
      subst hv2
      have hne : optPoints path ≠ [] := by
        intro hnil
        have h3 := optPoints_length path
        rw [hnil] at h3
        simp at h3
        omega
      exact hopt _ (headD_mem hne _)
  · have ho' := Option.some.inj ho
    subst ho'
    exact hopt v hv

/-- A successful `contourNext` returns an in-bounds pixel. -/
theorem contourNext_spec {bin w h x y cdir : Nat} {p' : GPt} {d' : Nat}
    (hcn : contourNext bin w h x y cdir = some (p', d')) :
    p'.1 < w ∧ p'.2 < h := by
  unfold contourNext at hcn
  obtain ⟨i, _, hfd⟩ := List.exists_of_findSome?_eq_some hcn
  dsimp only at hfd
  cases hmv : moveDir w h x y ((cdir + 5 + i) % 8) with
  | none => rw [hmv] at hfd; simp at hfd
  | some q =>
      rw [hmv] at hfd
      obtain ⟨nx, ny⟩ := q
      dsimp only at hfd
      by_cases hc : maskGet bin (ny*w+nx) = 1
      · rw [if_pos hc] at hfd
        have hq := Option.some.inj hfd
        cases hq
        exact moveDir_bounds hmv
      · rw [if_neg hc] at hfd
        cases hfd

/-- All pixels of a Moore-contour walk from an in-bounds start are in
bounds. -/
theorem contourWalk_grid (bin w h : Nat) (start : GPt) :
    ∀ (fuel : Nat) (pos : GPt) (cdir : Nat), pos.1 < w → pos.2 < h →
      ∀ q ∈ contourWalk bin w h start fuel pos cdir, q.1 < w ∧ q.2 < h := by
  intro fuel
  induction fuel with
  | zero =>
      intro pos cdir hx hy q hq
      simp only [contourWalk, List.mem_singleton] at hq
      subst hq
      exact ⟨hx, hy⟩
  | succ f ih =>
      intro pos cdir hx hy q hq
      simp only [contourWalk] at hq
      rcases List.mem_cons.mp hq with h1 | h1
      · subst h1
        exact ⟨hx, hy⟩
      · cases hcn : contourNext bin w h pos.1 pos.2 cdir with
        | none => rw [hcn] at h1; simp at h1
        | some pd =>
            rw [hcn] at h1
            obtain ⟨p', d'⟩ := pd
            dsimp only at h1
            split_ifs at h1 with hst
            · simp at h1
            · have hb := contourNext_spec hcn
              exact ih p' d' hb.1 hb.2 q h1

/-- All pixels of every contour `traceContour` emits are in bounds, given
in-bounds region pixels. -/
theorem traceContour_grid {bin w h : Nat} {region : Region}
    (hreg : ∀ p ∈ region.pixels, p.1 < w ∧ p.2 < h) :
    ∀ path ∈ traceContour region bin w h, ∀ q ∈ path, q.1 < w ∧ q.2 < h := by
  intro path hpath q hq
  unfold traceContour at hpath
  refine foldl_invariant _
    (fun (st : List (List GPt) × Finset Nat) => ∀ pa ∈ st.1, ∀ r ∈ pa, r.1 < w ∧ r.2 < h)
    region.pixels ([], ∅) ?_ ?_ path hpath q hq
  · intro pa hpa
    simp at hpa
  · intro st p hp hP
    dsimp only
    split_ifs with hvis hborder
    · exact hP
    · intro pa hpa r hr
      rcases List.mem_append.mp hpa with h1 | h1
      · exact hP pa h1 r hr
      · rw [List.mem_singleton] at h1
        subst h1
        exact contourWalk_grid bin w h p 19999 p 7 (hreg p hp).1 (hreg p hp).2 r hr
    · intro pa hpa r hr
      exact hP pa hpa r hr
    · exact hP

/-- All pixels of every chain `traceSkeleton` emits are in bounds. -/
theorem traceSkeleton_grid (skel w h : Nat) :
    ∀ path ∈ traceSkeleton skel w h, ∀ q ∈ path, q.1 < w ∧ q.2 < h := by
  intro path hpath q hq
  unfold traceSkeleton at hpath
  refine foldl_invariant _
    (fun (st : List (List GPt) × Finset Nat) => ∀ pa ∈ st.1, ∀ r ∈ pa, r.1 < w ∧ r.2 < h)
    (List.range (w*h)) ([], ∅) ?_ ?_ path hpath q hq
  · intro pa hpa
    simp at hpa
  · intro st i hi hP
    dsimp only
    split_ifs with hc
    · intro pa hpa r hr
      simp only [skelKeep] at hpa
      split_ifs at hpa with hlen
      · rcases List.mem_append.mp hpa with h1 | h1
        · exact hP pa h1 r hr
        · rw [List.mem_singleton] at h1
          subst h1
          have hiw : i < w*h := List.mem_range.mp hi
          have hw : 0 < w := by
            rcases Nat.eq_zero_or_pos w with h0 | h0
            · rw [h0] at hiw
              simp at hiw
            · exact h0
          have hx : i % w < w := Nat.mod_lt _ hw
          have hy : i / w < h := (Nat.div_lt_iff_lt_mul hw).mpr (Nat.mul_comm w h ▸ hiw)
          have hidx : (i/w)*w + i%w = i := by
            rw [Nat.mul_comm]
            exact Nat.div_add_mod i w
          have hspec := (skelWalk_spec skel w h (w*h+1) (i % w, i / w) st.2 hx hy
            (by
              show ((i % w, i / w).2*w+(i % w, i / w).1) ∉ st.2
              dsimp only
              rw [hidx]
              exact hc.2)
            (by
              show maskGet skel ((i % w, i / w).2*w+(i % w, i / w).1) = 1
              dsimp only
              rw [hidx]
              exact hc.1)).1
          exact ⟨(hspec r hr).1, (hspec r hr).2.1⟩
      · exact hP pa hpa r hr
    · exact hP

/-- `pickBest` selects one of its input polygons. -/
theorem pickBest_mem {paths : List (List GPt)} {p : List GPt}
    (hp : pickBest paths = some p) : p ∈ paths := by
  unfold pickBest at hp
  have hinv := foldl_invariant
    (fun (st : Rat × Option (List GPt)) pa =>
      if calcPolyArea pa > st.1 then (calcPolyArea pa, some pa) else st)
    (fun st => st.2 = none ∨ ∃ q ∈ paths, st.2 = some q)
    paths (0, none) (Or.inl rfl) ?_
  · rcases hinv with h1 | ⟨q, hq, h2⟩
    · rw [hp] at h1
      cases h1
    · rw [hp] at h2
      have h3 := Option.some.inj h2
      subst h3
      exact hq
  · intro st a ha hP
    dsimp only
    split_ifs with hgt
    · exact Or.inr ⟨a, ha, rfl⟩
    · exact hP

/-- The pixels of the pseudo-region of a mask are in bounds. -/
theorem maskToRegion_pixels_grid (m w h : Nat) :
    ∀ p ∈ (maskToRegion m w h).pixels, p.1 < w ∧ p.2 < h := by
  intro p hp
  have hp' : p ∈ (List.range (w*h)).filterMap fun i =>
      if maskGet m i = 1 then some (i % w, i / w) else none := hp
  obtain ⟨i, hi, hfi⟩ := List.mem_filterMap.mp hp'
  rw [List.mem_range] at hi
  split_ifs at hfi
  · have hq := Option.some.inj hfi
    subst hq
    have hw : 0 < w := by
      rcases Nat.eq_zero_or_pos w with h0 | h0
      · rw [h0] at hi
        simp at hi
      · exact h0
    exact ⟨Nat.mod_lt _ hw, (Nat.div_lt_iff_lt_mul hw).mpr (Nat.mul_comm w h ▸ hi)⟩

/-- A region-flood push preserves in-bounds stacks. -/
theorem rfPush_grid {bin w h : Nat} {st : List GPt × Finset Nat} {nx ny : Nat} {ok : Bool}
    (hst : ∀ p ∈ st.1, p.1 < w ∧ p.2 < h) :
    ∀ p ∈ (rfPush bin w h st nx ny ok).1, p.1 < w ∧ p.2 < h := by
  intro p hp
  unfold rfPush at hp
  split_ifs at hp with hc
  · rcases List.mem_cons.mp hp with h1 | h1
    · subst h1
      exact ⟨hc.2.1, hc.2.2.1⟩
    · exact hst p h1
  · exact hst p hp

/-- State after the four neighbour pushes of one `regionLoop` iteration. -/
def rfS4 (bin w h x y : Nat) (rest : List GPt) (vis : Finset Nat) :
    List GPt × Finset Nat :=
  rfPush bin w h
    (rfPush bin w h
      (rfPush bin w h
        (rfPush bin w h (rest, vis) (x+1) y true)
        (x-1) y (decide (0 < x)))
      x (y+1) true)
    x (y-1) (decide (0 < y))

/-- One `regionLoop` iteration records the popped cell and pushes its
neighbours. -/
theorem regionLoop_cons (bin w h f x y : Nat) (rest : List GPt) (vis : Finset Nat)
    (acc : RFState) :
    regionLoop bin w h (f+1) ((x, y) :: rest) vis acc =
      regionLoop bin w h f (rfS4 bin w h x y rest vis).1 (rfS4 bin w h x y rest vis).2
        { pixels := acc.pixels ++ [(x, y)],
          minX := min acc.minX x, maxX := max acc.maxX x,
          minY := min acc.minY y, maxY := max acc.maxY y } := rfl

/-- The iteration's pushes preserve in-bounds stacks. -/
theorem rfS4_grid {bin w h x y : Nat} {rest : List GPt} {vis : Finset Nat}
    (hst : ∀ p ∈ rest, p.1 < w ∧ p.2 < h) :
    ∀ p ∈ (rfS4 bin w h x y rest vis).1, p.1 < w ∧ p.2 < h :=
  rfPush_grid (rfPush_grid (rfPush_grid (rfPush_grid hst)))

/-- All pixels a region flood records are in bounds, given an in-bounds
stack and accumulator. -/
theorem regionLoop_pixels_grid (bin w h : Nat) :
    ∀ (fuel : Nat) (stack : List GPt) (vis : Finset Nat) (acc : RFState),
      (∀ p ∈ stack, p.1 < w ∧ p.2 < h) →
      (∀ p ∈ acc.pixels, p.1 < w ∧ p.2 < h) →
      ∀ p ∈ (regionLoop bin w h fuel stack vis acc).1.pixels, p.1 < w ∧ p.2 < h := by
  intro fuel
  induction fuel with
  | zero =>
      intro stack vis acc hs ha p hp
      exact ha p hp
  | succ f ih =>
      intro stack vis acc hs ha p hp
      cases stack with
      | nil => exact ha p hp
      | cons q rest =>
          obtain ⟨x, y⟩ := q
          rw [regionLoop_cons] at hp
          have hq := hs (x, y) (List.mem_cons_self _ _)
          refine ih _ _ _ (rfS4_grid fun p' hp' => hs p' (List.mem_cons_of_mem _ hp'))
            ?_ p hp
          intro p' hp'
          rcases List.mem_append.mp hp' with h1 | h1
          · exact ha p' h1
          · rw [List.mem_singleton] at h1
            subst h1
            exact hq

/-- All pixels of a flooded region are in bounds, given an in-bounds seed. -/
theorem floodFill_pixels_grid {bin w h : Nat} {vis : Finset Nat} {sx sy : Nat}
    (hx : sx < w) (hy : sy < h) :
    ∀ p ∈ (floodFill bin w h vis sx sy).1.pixels, p.1 < w ∧ p.2 < h := by
  intro p hp
  exact regionLoop_pixels_grid bin w h (w*h+1) [(sx, sy)] (insert (sy*w+sx) vis)
    ⟨[], sx, sx, sy, sy⟩
    (by
      intro q hq
      rw [List.mem_singleton] at hq
      subst hq
      exact ⟨hx, hy⟩)
    (by
      intro q hq
      simp at hq) p hp

/-- All pixels of every region the scanner finds are in bounds. -/
theorem identifyRegions_pixels_grid (bin w h : Nat) :
    ∀ r ∈ identifyRegions bin w h, ∀ p ∈ r.pixels, p.1 < w ∧ p.2 < h := by
  intro r hr p hp
  unfold identifyRegions at hr
  refine foldl_invariant _
    (fun (st : List Region × Finset Nat) => ∀ r' ∈ st.1, ∀ q ∈ r'.pixels, q.1 < w ∧ q.2 < h)
    (List.range (w*h)) ([], ∅) ?_ ?_ r hr p hp
  · intro r' hr'
    simp at hr'
  · intro st i hi hP
    dsimp only
    split_ifs with hc
    · intro r' hr' q hq
      simp only [regKeep] at hr'
      split_ifs at hr' with hne
      · rcases List.mem_append.mp hr' with h1 | h1
        · exact hP r' h1 q hq
        · rw [List.mem_singleton] at h1
          subst h1
          have hiw : i < w*h := List.mem_range.mp hi
          have hw : 0 < w := by
            rcases Nat.eq_zero_or_pos w with h0 | h0
            · rw [h0] at hiw
              simp at hiw
            · exact h0
          exact floodFill_pixels_grid (Nat.mod_lt _ hw)
            ((Nat.div_lt_iff_lt_mul hw).mpr (Nat.mul_comm w h ▸ hiw)) q hq
      · exact hP r' hr' q hq
    · exact hP

/-- Membership through the insertion step of the descending sort. -/
theorem mem_insertReg {p r : Region} : ∀ {l : List Region}, p ∈ insertReg r l →
    p = r ∨ p ∈ l := by
  intro l
  induction l with
  | nil =>
      intro hp
      rw [insertReg, List.mem_singleton] at hp
      exact Or.inl hp
  | cons s rest ih =>
      intro hp
      rw [insertReg] at hp
      split_ifs at hp with hle
      · rcases List.mem_cons.mp hp with h1 | h1
        · exact Or.inr (h1 ▸ List.mem_cons_self _ _)
        · rcases ih h1 with h2 | h2
          · exact Or.inl h2
          · exact Or.inr (List.mem_cons_of_mem _ h2)
      · rcases List.mem_cons.mp hp with h1 | h1
        · exact Or.inl h1
        · exact Or.inr h1

/-- The sort emits only members of its input. -/
theorem mem_sortRegions {l : List Region} {p : Region} (hp : p ∈ sortRegions l) :
    p ∈ l := by
  unfold sortRegions at hp
  refine foldl_invariant (fun acc r => insertReg r acc) (fun acc => ∀ q ∈ acc, q ∈ l)
    l [] ?_ ?_ p hp
  · intro q hq
    simp at hq
  · intro acc a ha hP
    intro q hq
    rcases mem_insertReg hq with h1 | h1
    · exact h1 ▸ ha
    · exact hP q h1

/-- All points of every Stage A path are in the frame. -/
theorem silhouettePaths_inFrame (bin w h : Nat) (params : ProcessingParams) :
    ∀ o ∈ silhouettePaths bin w h params, ∀ v ∈ o.points, inFrame w h v := by
  intro o ho v hv
  simp only [silhouettePaths] at ho
  set m := invertMask (w*h) (floodFillBackground (dilateMask bin w h 4) w h) with hm
  split_ifs at ho with hlen
  · cases hpb : pickBest (traceContour (maskToRegion m w h) m w h) with
    | none =>
        rw [hpb] at ho
        simp at ho
    | some best =>
        rw [hpb] at ho
        dsimp only at ho
        cases hop : optimizePath best params .OUTLINE with
        | none =>
            rw [hop] at ho
            simp at ho
        | some opt =>
            rw [hop] at ho
            dsimp only at ho
            rw [List.mem_singleton] at ho
            subst ho
            exact optimizePath_inFrame
              (traceContour_grid (maskToRegion_pixels_grid m w h) best (pickBest_mem hpb))
              hop v hv
  · simp at ho

/-- All points of every per-region Stage B path are in the frame, given
in-bounds region pixels. -/
theorem regionPaths_inFrame {bin w h : Nat} {params : ProcessingParams} {fillTh : Rat}
    {r : Region} (hreg : ∀ p ∈ r.pixels, p.1 < w ∧ p.2 < h) :
    ∀ o ∈ regionPaths bin w h params fillTh r, ∀ v ∈ o.points, inFrame w h v := by
  intro o ho v hv
  simp only [regionPaths] at ho
  split_ifs at ho with hth
  · obtain ⟨pa, hpa, hopt⟩ := List.mem_filterMap.mp ho
    exact optimizePath_inFrame (traceContour_grid hreg pa hpa) hopt v hv
  · obtain ⟨pa, hpa, hopt⟩ := List.mem_filterMap.mp ho
    exact optimizePath_inFrame
      (traceSkeleton_grid (zhangSuen (extractRegionBinary r w h) w h) w h pa hpa) hopt v hv

/-- All points of every Stage B path are in the frame. -/
theorem innerPaths_inFrame (bin w h : Nat) (params : ProcessingParams) :
    ∀ o ∈ innerPaths bin w h params, ∀ v ∈ o.points, inFrame w h v := by
  intro o ho
  unfold innerPaths at ho
  split_ifs at ho with hd
  · obtain ⟨r, hr, hor⟩ := List.mem_flatMap.mp ho
    rw [List.mem_filter] at hr
    have hri : r ∈ identifyRegions bin w h :=
      (List.mem_filter.mp (mem_sortRegions hr.1)).1
    exact regionPaths_inFrame (identifyRegions_pixels_grid bin w h r hri) o hor
  · simp at ho

/-- C2 amended: every vertex of every polyline of every emitted document
lies in `[−P, W−1−P] × [−P, H−1−P]` — the padded image extent shifted by the
emitter's `−P` offset.  The spec's claimed bounds `[0, W−2P] × [0, H−2P]`
do not hold: the silhouette is traced on the 4-dilated mask and can enter
the padding margin, producing negative output coordinates (see the
counterexample). -/
theorem svg_vertices_bounds (data : List Nat) (w h : Nat) (params : ProcessingParams) :
    ∀ v ∈ svgVertices (processWithParams data w h params).allPaths padding,
      -(padding : Rat) ≤ v.1 ∧ v.1 ≤ (w : Rat) - 1 - padding ∧
      -(padding : Rat) ≤ v.2 ∧ v.2 ≤ (h : Rat) - 1 - padding := by
  intro v hv
  unfold svgVertices at hv
  obtain ⟨o, ho, hvm⟩ := List.mem_flatMap.mp hv
  obtain ⟨u, hu, rfl⟩ := List.mem_map.mp hvm
  have hall : (processWithParams data w h params).allPaths =
      silhouettePaths (toBinary 180 data) w h params ++
        innerPaths (toBinary 180 data) w h params := rfl
  rw [hall] at ho
  have hin : inFrame w h u := by
    rcases List.mem_append.mp ho with h1 | h1
    · exact silhouettePaths_inFrame (toBinary 180 data) w h params o h1 u hu
    · exact innerPaths_inFrame (toBinary 180 data) w h params o h1 u hu
  obtain ⟨h1, h2, h3, h4⟩ := hin
  exact ⟨by simp only; linarith, by simp only; linarith,
    by simp only; linarith, by simp only; linarith⟩

/-- A 21×21 all-white RGBA image with a single black pixel at the centre:
the padded rendering of a 1×1 black input image (padding 10 on every side). -/
def dotImage21 : List Nat :=
  (List.range (21*21)).flatMap fun i =>
    if i = 10*21+10 then [0, 0, 0, 255] else [255, 255, 255, 255]

set_option maxRecDepth 100000 in
/-- C2 counterexample: on the padded 21×21 single-dot image the emitted
silhouette (traced on the 4-dilated mask, which grows into the padding
margin) has vertices with negative coordinates after the `−P` offset, so the
claimed bounds `0 ≤ x ≤ W−2P ∧ 0 ≤ y ≤ H−2P` fail. -/
theorem padding_elimination_refuted :
    ¬ (∀ v ∈ svgVertices (processWithParams dotImage21 21 21 ⟨0, 50⟩).allPaths padding,
        0 ≤ v.1 ∧ v.1 ≤ (21 : Rat) - 2*padding ∧
        0 ≤ v.2 ∧ v.2 ≤ (21 : Rat) - 2*padding) := by decide!

/-- A 5×5 all-black RGBA image. -/
def allBlack5 : List Nat := (List.range (5*5)).flatMap fun _ => [0, 0, 0, 255]

set_option maxHeartbeats 4000000 in
set_option maxRecDepth 100000 in
/-- Witness for C2's amended bounds at a concrete emitted vertex of the 5×5
all-black image. -/
theorem svg_vertices_bounds_witness :
    (((-6, (-17 : Rat)/2) : RPt) ∈
        svgVertices (processWithParams allBlack5 5 5 ⟨0, 50⟩).allPaths padding) ∧
    (-(padding : Rat) ≤ ((-6 : Rat), (-17 : Rat)/2).1 ∧
      ((-6 : Rat), (-17 : Rat)/2).1 ≤ (5 : Rat) - 1 - padding ∧
      -(padding : Rat) ≤ ((-6 : Rat), (-17 : Rat)/2).2 ∧
      ((-6 : Rat), (-17 : Rat)/2).2 ≤ (5 : Rat) - 1 - padding) :=
  ⟨by decide,
    svg_vertices_bounds allBlack5 5 5 ⟨0, 50⟩ (-6, (-17 : Rat)/2) (by decide)⟩

end LaserCL
